import Mathlib

/-!
# lifezq/log: the bounded line scanner and the trace bridges

A shallow embedding of `writer.go`, `init.go`, `logger.go`, `gorm_logger.go`
and `es_logger.go`, together with the parts of the Go standard library they
call (`bytes.IndexByte`, `bufio.ScanLines`, `bufio.Scanner`, the readers
`io.Pipe` and `bytes.Buffer`), followed by the properties of the specification
that concern them.

Go byte slices are lists of `UInt8`; a nil slice result is `none`. Go `int`
values are `Int`. A call of the facade (`Infof`, `Warnf`, `Errorf`) is the
record it hands to the sinks, and a function that logs returns the list of its
records. Loops whose number of iterations depends on the input take a bound on
that number and return `none` when it is reached.
-/

namespace Log

/-! ## Bytes -/

/-- The line feed byte. -/
def LF : UInt8 := 10

/-- The carriage return byte. -/
def CR : UInt8 := 13

/-- The space byte. -/
def SP : UInt8 := 32

/-- Go `bytes.IndexByte`: index of the first occurrence of `c`, or `-1`. -/
def IndexByte : List UInt8 → UInt8 → Int
  | [], _ => -1
  | b :: bs, c =>
    if b = c then 0
    else
      let i := IndexByte bs c
      if i < 0 then -1 else i + 1

/-- Go `bufio.dropCR`: drops one terminal carriage return. -/
def dropCR (data : List UInt8) : List UInt8 :=
  if 0 < data.length ∧ data.getLast? = some CR then data.take (data.length - 1)
  else data

/-- The Go `error` values of the scanning machinery: `io.EOF`, the sentinel
errors of `bufio`, `io.ErrNoProgress`, or any other error. -/
inductive ScanError
  | eof | finalToken | tooLong | negativeAdvance | advanceTooFar | badReadCount
  | noProgress | other (msg : String)
deriving DecidableEq, Repr

/-- The result of a split function: `(advance, token, err)`. -/
structure SplitResult where
  advance : Int
  token : Option (List UInt8)
  err : Option ScanError
deriving DecidableEq, Repr

/-- Go `bufio.ScanLines`. -/
def ScanLines (data : List UInt8) (atEOF : Bool) : SplitResult :=
  if atEOF ∧ data.length = 0 then ⟨0, none, none⟩
  else
    let i := IndexByte data LF
    if 0 ≤ i then ⟨i + 1, some (dropCR (data.take i.toNat)), none⟩
    else if atEOF then ⟨data.length, some (dropCR data), none⟩
    else ⟨0, none, none⟩

/-- Go `bufio.MaxScanTokenSize`. -/
def MaxScanTokenSize : Nat := 64 * 1024

/-- The constant `maxTokenLength` of `writer.go`. -/
def maxTokenLength : Nat := MaxScanTokenSize / 2

/-- The split function `scanLinesOrGiveLong` of `writer.go`. -/
def scanLinesOrGiveLong (data : List UInt8) (atEOF : Bool) : SplitResult :=
  let r := ScanLines data atEOF
  if 0 < r.advance ∨ r.token ≠ none ∨ r.err ≠ none then r
  else if data.length < maxTokenLength then r
  else ⟨maxTokenLength, some (data.take maxTokenLength), none⟩

/-! ## Records, fields and the facade (`init.go`, `logger.go`) -/

/-- Severity of a record (`zapcore.Level`). -/
inductive Level
  | debug | info | warn | error | dpanic | panic | fatal
deriving DecidableEq, Repr

/-- A Go string: either a string constant or library text kept as `String`, or
the conversion `string(b)` of a byte slice. -/
inductive Text
  | lit (s : String)
  | bytes (b : List UInt8)
deriving DecidableEq, Repr

/-- A Go `error` value: its `Error()` text, and whether
`errors.Is(err, gorm.ErrRecordNotFound)` holds for it. -/
structure GoError where
  msg : String
  isRecordNotFound : Bool
deriving DecidableEq, Repr

/-- An argument of a printf-style facade call. -/
inductive Arg
  | str (s : String)
  | text (t : Text)
  | int (n : Int)
  | time (t : Int)
  | duration (d : Int)
  | durationString (d : Int)
  | err (e : GoError)
  | scanErr (e : ScanError)
deriving DecidableEq, Repr

/-- The kind of a `zap.Field` (`zapcore.FieldType`), as far as used here. -/
inductive FieldType
  | unknown | stringType | int64Type | boolType | reflectType
deriving DecidableEq, Repr

/-- A structured field (`zap.Field`). -/
structure Field where
  Key : String
  Kind : FieldType
  Integer : Int
  Str : String
deriving DecidableEq, Repr

/-- The constructor `zap.String(key, val)`. -/
def zapString (key val : String) : Field := ⟨key, .stringType, 0, val⟩

/-- A dynamically typed Go value (`any`) stored in a context. -/
inductive Any
  | str (s : String)
  | int (n : Int)
  | bool (b : Bool)
deriving DecidableEq, Repr

/-- A request-scoped context, seen through `ctx.Value(key)` on string keys;
`none` is the nil interface. -/
abbrev Context := String → Option Any

/-- The context `context.TODO()`: it carries no value. -/
def contextTODO : Context := fun _ => none

/-- The facade state `Logger` of `init.go`: the configured context field names
(the embedded `*zap.Logger` is the sink the records go to). -/
structure Logger where
  ctxFields : List String

/-- The method `Logger.fields` of `init.go`. -/
def Logger.fields (l : Logger) (ctx : Context) (fields : List Field) : List Field :=
  if l.ctxFields.length = 0 then fields
  else
    let result := l.ctxFields.foldl
      (fun (result : List Field) (field : String) =>
        match ctx field with
        | none => result
        | some val =>
          match val with
          | Any.str strVal => result ++ [zapString field strVal]
          | _ => result)
      []
    if 0 < fields.length then result ++ fields else result

/-- One call of the facade: the record handed to the sinks. -/
structure Record where
  level : Level
  fields : List Field
  template : Text
  args : List Arg
deriving DecidableEq, Repr

/-- The facade function `Infof` of `logger.go`. -/
def Infof (lg : Logger) (ctx : Context) (template : Text) (args : List Arg) : Record :=
  ⟨.info, lg.fields ctx [], template, args⟩

/-- The facade function `Warnf` of `logger.go`. -/
def Warnf (lg : Logger) (ctx : Context) (template : Text) (args : List Arg) : Record :=
  ⟨.warn, lg.fields ctx [], template, args⟩

/-- The facade function `Errorf` of `logger.go`. -/
def Errorf (lg : Logger) (ctx : Context) (template : Text) (args : List Arg) : Record :=
  ⟨.error, lg.fields ctx [], template, args⟩

/-! ## The ORM trace bridge (`gorm_logger.go`) -/

/-- The level `gorm.io/gorm/logger.Silent`. -/
def glSilent : Int := 1
/-- The level `gorm.io/gorm/logger.Error`. -/
def glError : Int := 2
/-- The level `gorm.io/gorm/logger.Warn`. -/
def glWarn : Int := 3
/-- The level `gorm.io/gorm/logger.Info`. -/
def glInfo : Int := 4

/-- The struct `GormLogger`; `SlowThreshold` is a `time.Duration` in
nanoseconds. -/
structure GormLogger where
  LogLevel : Int
  IgnoreRecordNotFoundError : Bool
  SlowThreshold : Int
deriving DecidableEq, Repr

/-- The format string of the three calls in `GormLogger.Trace`. -/
def traceTemplate : Text := .lit "err=%s elapsed=%s rows=%d sql=%s"

/-- `errors.Is(err, gorm.ErrRecordNotFound)` on a possibly nil error. -/
def isRecordNotFound : Option GoError → Bool
  | none => false
  | some e => e.isRecordNotFound

/-- The text `e` of the slow and normal branches: `err.Error()` when the error
is not nil, the empty string otherwise. -/
def errText : Option GoError → String
  | none => ""
  | some e => e.msg

/-- The method `GormLogger.Trace`; `elapsed` is the value of
`time.Since(begin)`, `fc` the closure giving the SQL text and the row count.
The result lists the records emitted by the call. -/
def GormLogger.Trace (l : GormLogger) (lg : Logger) (ctx : Context) (elapsed : Int)
    (fc : Unit → String × Int) (err : Option GoError) : List Record :=
  if l.LogLevel ≤ 0 then []
  else if err ≠ none ∧ l.LogLevel ≥ glError ∧
      (¬ l.IgnoreRecordNotFoundError ∨ ¬ isRecordNotFound err) then
    let (sql, rows) := fc ()
    [Errorf lg ctx traceTemplate
      [.str (errText err), .durationString elapsed, .int rows, .str sql]]
  else if l.SlowThreshold ≠ 0 ∧ elapsed > l.SlowThreshold ∧ l.LogLevel ≥ glWarn then
    let (sql, rows) := fc ()
    [Warnf lg ctx traceTemplate
      [.str (errText err), .durationString elapsed, .int rows, .str sql]]
  else if l.LogLevel ≥ glInfo then
    let (sql, rows) := fc ()
    [Infof lg ctx traceTemplate
      [.str (errText err), .durationString elapsed, .int rows, .str sql]]
  else []

/-! ## The Go scanner (`bufio.Scanner`) over a reader -/

/-- An `io.Reader` given by the writes still to be delivered: an `io.Pipe`
whose writer is closed after its last write, or a `bytes.Buffer` (one write).
When no write is left the reader is at end of stream. -/
abbrev Reader := List (List UInt8)

/-- The call `Read(p)` with `len(p) = space`: the bytes copied into `p`, the
reader afterwards, and whether the call returned `io.EOF`. A write larger than
`p` stays pending with its remaining bytes. -/
def Reader.Read (r : Reader) (space : Nat) : List UInt8 × Reader × Bool :=
  match r with
  | [] => ([], [], true)
  | w :: ws =>
    let n := min space w.length
    (w.take n, if n < w.length then w.drop n :: ws else ws, false)

/-- The constant `startBufSize` of `bufio`. -/
def startBufSize : Nat := 4096

/-- The constant `maxConsecutiveEmptyReads` of `bufio`. -/
def maxConsecutiveEmptyReads : Nat := 100

/-- The largest `int` of a 64-bit platform. -/
def maxInt : Nat := 2 ^ 63 - 1

/-- The state of a `bufio.Scanner`. The buffer `s.buf` is kept as its length
`bufLen`, the offset `start` and the unread bytes `data = s.buf[s.start:s.end]`,
so that `s.end = start + len(data)`. -/
structure Scanner where
  r : Reader
  maxTokenSize : Nat
  token : Option (List UInt8)
  bufLen : Nat
  start : Nat
  data : List UInt8
  err : Option ScanError
  empties : Nat
  done : Bool
deriving DecidableEq, Repr

/-- The constructor `bufio.NewScanner(r)`. -/
def NewScanner (r : Reader) : Scanner :=
  { r := r, maxTokenSize := MaxScanTokenSize, token := none, bufLen := 0, start := 0,
    data := [], err := none, empties := 0, done := false }

/-- The method `Scanner.setErr`: records the first error that is not `io.EOF`. -/
def Scanner.setErr (s : Scanner) (e : ScanError) : Scanner :=
  if s.err = none ∨ s.err = some .eof then { s with err := some e } else s

/-- The method `Scanner.Err`: the first error met, `io.EOF` excepted. -/
def Scanner.Err (s : Scanner) : Option ScanError :=
  if s.err = some .eof then none else s.err

/-- The method `Scanner.Text`: the most recent token as a string. -/
def Scanner.Text (s : Scanner) : List UInt8 := s.token.getD []

/-- What a call of `Scanner.Scan` does: it returns `more` and leaves the
scanner in state `s`, or it panics. -/
inductive ScanResult
  | ret (more : Bool) (s : Scanner)
  | panic
deriving DecidableEq, Repr

/-- The first half of an iteration of the loop of `Scanner.Scan`: when there is
data or an error, call the split function; either `Scan` returns (left) or the
loop goes on to read more (right). -/
def Scanner.splitStep (split : List UInt8 → Bool → SplitResult) (s : Scanner) :
    ScanResult ⊕ Scanner :=
  if 0 < s.data.length ∨ s.err ≠ none then
    let res := split s.data (s.err ≠ none)
    if res.err ≠ none then
      if res.err = some .finalToken then
        .inl (.ret (res.token ≠ none) { s with token := res.token, done := true })
      else .inl (.ret false (s.setErr (res.err.getD .eof)))
    else if res.advance < 0 then .inl (.ret false (s.setErr .negativeAdvance))
    else if res.advance > s.data.length then .inl (.ret false (s.setErr .advanceTooFar))
    else
      let s1 : Scanner := { s with
        start := s.start + res.advance.toNat
        data := s.data.drop res.advance.toNat
        token := res.token }
      if res.token ≠ none then
        if s1.err = none ∨ 0 < res.advance then .inl (.ret true { s1 with empties := 0 })
        else if s1.empties + 1 > maxConsecutiveEmptyReads then .inl .panic
        else .inl (.ret true { s1 with empties := s1.empties + 1 })
      else .inr s1
  else .inr s

/-- The loop reading from the reader inside `Scanner.Scan`; `loop` is its
counter of empty reads, and the first argument bounds the number of its
iterations (it makes at most `maxConsecutiveEmptyReads + 1`). -/
def Scanner.readLoop : Nat → Nat → Scanner → Scanner
  | 0, _, s => s
  | fuel + 1, loop, s =>
    let space := s.bufLen - (s.start + s.data.length)
    let (p, r, eof) := s.r.Read space
    if space < p.length then s.setErr .badReadCount
    else
      let s1 : Scanner := { s with r := r, data := s.data ++ p }
      if eof then s1.setErr .eof
      else if 0 < p.length then { s1 with empties := 0 }
      else if loop + 1 > maxConsecutiveEmptyReads then s1.setErr .noProgress
      else Scanner.readLoop fuel (loop + 1) s1

/-- The second half of an iteration of the loop of `Scanner.Scan`: stop at a
recorded error, else shift the data to the front of the buffer, grow the
buffer when it is full, and read. -/
def Scanner.fillStep (s : Scanner) : ScanResult ⊕ Scanner :=
  if s.err ≠ none then .inl (.ret false { s with start := 0, data := [] })
  else
    let s1 : Scanner :=
      if 0 < s.start ∧ (s.start + s.data.length = s.bufLen ∨ s.start > s.bufLen / 2) then
        { s with start := 0 }
      else s
    if s1.start + s1.data.length = s1.bufLen then
      if s1.bufLen ≥ s1.maxTokenSize ∨ s1.bufLen > maxInt / 2 then
        .inl (.ret false (s1.setErr .tooLong))
      else
        let newSize := if s1.bufLen * 2 = 0 then startBufSize else s1.bufLen * 2
        let s2 : Scanner := { s1 with bufLen := min newSize s1.maxTokenSize, start := 0 }
        .inr (s2.readLoop (maxConsecutiveEmptyReads + 1) 0)
    else .inr (s1.readLoop (maxConsecutiveEmptyReads + 1) 0)

/-- The loop of `Scanner.Scan`, with a bound on the number of its iterations
(`none` when the bound is reached). -/
def Scanner.scanLoop (split : List UInt8 → Bool → SplitResult) :
    Nat → Scanner → Option ScanResult
  | 0, _ => none
  | fuel + 1, s =>
    match s.splitStep split with
    | .inl res => some res
    | .inr s1 =>
      match s1.fillStep with
      | .inl res => some res
      | .inr s2 => Scanner.scanLoop split fuel s2

/-- The method `Scanner.Scan`. -/
def Scanner.Scan (split : List UInt8 → Bool → SplitResult) (fuel : Nat) (s : Scanner) :
    Option ScanResult :=
  if s.done then some (.ret false s) else s.scanLoop split fuel

/-- The statement `for scanner.Scan() { body(scanner.Text()) }`: the records
the body emits, and the scanner when the loop ends (`none` when `Scan`
panicked). The bound limits the number of tokens and the iterations of each
`Scan`. -/
def forScan (split : List UInt8 → Bool → SplitResult) (body : List UInt8 → List Record) :
    Nat → Scanner → Option (List Record × Option Scanner)
  | 0, _ => none
  | fuel + 1, s =>
    match s.Scan split fuel with
    | none => none
    | some .panic => some ([], none)
    | some (.ret false s1) => some ([], some s1)
    | some (.ret true s1) =>
      match forScan split body fuel s1 with
      | none => none
      | some (recs, fin) => some (body s1.Text ++ recs, fin)

/-! ## The stream-to-logger adapter (`writer.go`) -/

/-- The expression `strings.Replace(s, " ", "", -1)`. -/
def removeSpaces (s : List UInt8) : List UInt8 := s.filter (fun b => b != SP)

/-- The body of the loop of `scan`: skip a blank line, log any other. -/
def scanBody (lg : Logger) (ctx : Context) (text : List UInt8) : List Record :=
  if removeSpaces text = [] then [] else [Infof lg ctx (.bytes text) []]

/-- The function `scan` of `writer.go`, run to the end of the reader: the
records it emits, and whether it returned (`false` when it panicked). -/
def scan (lg : Logger) (ctx : Context) (fuel : Nat) (reader : Reader) :
    Option (List Record × Bool) :=
  let scanner := NewScanner reader
  match forScan scanLinesOrGiveLong (scanBody lg ctx) fuel scanner with
  | none => none
  | some (recs, none) => some (recs, false)
  | some (recs, some s) =>
    match s.Err with
    | none => some (recs, true)
    | some e =>
      some (recs ++ [Errorf lg ctx (.lit "Error while reading from Writer: %s") [.scanErr e]],
        true)

/-! ## The search-engine trace bridge (`es_logger.go`) -/

/-- The struct `EsLogger`. -/
structure EsLogger where
  RequestEnabled : Bool
  ResponseEnabled : Bool
deriving DecidableEq, Repr

/-- The method `EsLogger.RequestBodyEnabled`. -/
def EsLogger.RequestBodyEnabled (logger : EsLogger) : Bool := logger.RequestEnabled

/-- The method `EsLogger.ResponseBodyEnabled`. -/
def EsLogger.ResponseBodyEnabled (logger : EsLogger) : Bool := logger.ResponseEnabled

/-- A request body (an `io.ReadCloser`) read to its end: the bytes it yields and
the error that ends it (`none` for `io.EOF`). -/
structure ReadCloser where
  content : List UInt8
  err : Option GoError
deriving DecidableEq, Repr

/-- The field `Body` of an `http.Request`: nil, `http.NoBody`, or a body. -/
inductive BodyRef
  | nil
  | noBody
  | stream (b : ReadCloser)
deriving DecidableEq, Repr

/-- The part of `http.Request` that `LogRoundTrip` reads: `Body`, and the body
returned by `GetBody()` when `GetBody` is set. -/
structure Request where
  Body : BodyRef
  GetBody : Option ReadCloser
deriving DecidableEq, Repr

/-- The call `buf.ReadFrom(b)` on an empty `bytes.Buffer`: the content of the
buffer afterwards and the error returned. -/
def ReadFrom (b : ReadCloser) : List UInt8 × Option GoError := (b.content, b.err)

/-- A `bytes.Buffer` with the given content, as a reader. -/
def bufferReader (content : List UInt8) : Reader :=
  if content = [] then [] else [content]

/-- The format string of the request record of `LogRoundTrip`. -/
def esTemplate : Text := .lit "ES日志: 请求参数: %s; 时间: %+v; 消耗：%+v"

/-- The body of the loop of `LogRoundTrip`: log a non-empty line. -/
def esBody (lg : Logger) (t ti : Int) (s : List UInt8) : List Record :=
  if s ≠ [] then [Infof lg contextTODO esTemplate [.text (.bytes s), .time t, .duration ti]]
  else []

/-- What a call of `LogRoundTrip` does: the records it emits, whether it
returns, and the error it returns. -/
structure RoundTrip where
  records : List Record
  returned : Bool
  err : Option GoError
deriving DecidableEq, Repr

/-- The method `EsLogger.LogRoundTrip`; `request = none` is a nil request. The
response and the incoming error are not read by the method and are left out. -/
def EsLogger.LogRoundTrip (logger : EsLogger) (lg : Logger) (fuel : Nat)
    (request : Option Request) (t ti : Int) : Option RoundTrip :=
  if logger.RequestBodyEnabled then
    match request with
    | none => some ⟨[], true, none⟩
    | some req =>
      match req.Body with
      | .nil => some ⟨[], true, none⟩
      | .noBody => some ⟨[], true, none⟩
      | .stream body =>
        let (buf, err) :=
          match req.GetBody with
          | some b => ReadFrom b
          | none => ReadFrom body
        match err with
        | some e =>
          some ⟨[Errorf lg contextTODO (.lit "ES日志error: %+v") [.err e]], true, none⟩
        | none =>
          let scanner := NewScanner (bufferReader buf)
          match forScan ScanLines (esBody lg t ti) fuel scanner with
          | none => none
          | some (recs, none) => some ⟨recs, false, none⟩
          | some (recs, some _) => some ⟨recs, true, none⟩
  else some ⟨[], true, none⟩

/-! ## The statements of the specification and the invariants of the scanner -/

/-- The lines of a byte stream, split on the line feed: the runs of bytes
between line feeds, with a last unterminated run when it is not empty. -/
def splitLines : List UInt8 → List (List UInt8)
  | [] => []
  | b :: bs =>
    if b = LF then [] :: splitLines bs
    else
      match splitLines bs with
      | [] => [[b]]
      | l :: ls => (b :: l) :: ls

/-- The records the specification states for the adapter: one info record per
line that is neither empty nor made of spaces only, with the line as message. -/
def statedRecords (lg : Logger) (ctx : Context) (stream : List UInt8) : List Record :=
  ((splitLines stream).filter (fun l => removeSpaces l ≠ [])).map
    (fun l => Infof lg ctx (.bytes l) [])

/-- The records the adapter emits: each line loses one trailing carriage
return, then one info record per line that is not blank, with the line as
message. -/
def loggedRecords (lg : Logger) (ctx : Context) (stream : List UInt8) : List Record :=
  (((splitLines stream).map dropCR).filter (fun l => removeSpaces l ≠ [])).map
    (fun l => Infof lg ctx (.bytes l) [])

/-- The records the search-engine bridge emits for a body: each line loses one
trailing carriage return, then one info record per non-empty line. -/
def esRecords (lg : Logger) (t ti : Int) (body : List UInt8) : List Record :=
  (((splitLines body).map dropCR).filter (fun l => l ≠ [])).map
    (fun l => Infof lg contextTODO esTemplate [.text (.bytes l), .time t, .duration ti])

/-- A split function that behaves as `bufio.ScanLines` on every buffer that
holds a line feed, or is offered at the end of the input, or is shorter than
`limit`. -/
def AgreesWithScanLines (split : List UInt8 → Bool → SplitResult) (limit : Nat) : Prop :=
  ∀ data atEOF, (LF ∈ data ∨ atEOF = true ∨ data.length < limit) →
    split data atEOF = ScanLines data atEOF

/-- A scanner between two tokens, before the end of its reader is seen: no
error recorded, the data within the buffer, no empty write pending. -/
structure Scanner.Ready (s : Scanner) : Prop where
  err : s.err = none
  done : s.done = false
  fits : s.start + s.data.length ≤ s.bufLen
  cap : s.bufLen ≤ MaxScanTokenSize
  size : s.maxTokenSize = MaxScanTokenSize
  writes : ∀ w ∈ s.r, w ≠ []

/-- A scanner whose buffer has one of the sizes reached by doubling from
`startBufSize` up to `maxTokenLength`, with the data within the buffer. -/
structure Scanner.Bounded (s : Scanner) : Prop where
  fits : s.start + s.data.length ≤ s.bufLen
  size : s.maxTokenSize = MaxScanTokenSize
  buf : s.bufLen = 0 ∨ s.bufLen = 4096 ∨ s.bufLen = 8192 ∨ s.bufLen = 16384 ∨
    s.bufLen = 32768

/-- A scanner that has seen the end of its reader and has handed out all its
data. -/
structure Scanner.Drained (s : Scanner) : Prop where
  err : s.err = some .eof
  done : s.done = false
  data : s.data = []
  r : s.r = []

/-- The field the specification extracts for one configured name: the pair
`(name, v)` when the context lookup of `name` is a string `v`, nothing
otherwise. -/
def extractField (ctx : Context) (name : String) : Option Field :=
  match ctx name with
  | some (Any.str v) => some (zapString name v)
  | _ => none

/-- The severity the specification assigns to a traced query when every level
is enabled: error, slow (warn) or normal (info). -/
def traceLevel (l : GormLogger) (elapsed : Int) (err : Option GoError) : Level :=
  if err ≠ none ∧ ¬ (l.IgnoreRecordNotFoundError = true ∧ isRecordNotFound err = true) then
    .error
  else if l.SlowThreshold ≠ 0 ∧ elapsed > l.SlowThreshold then .warn
  else .info

/-! ## Facts about the library functions -/

theorem IndexByte_neg_one_le (data : List UInt8) (c : UInt8) : -1 ≤ IndexByte data c := by
  induction data with
  | nil => simp [IndexByte]
  | cons b bs ih =>
    simp only [IndexByte]
    split
    · omega
    · split <;> omega

theorem IndexByte_lt_length (data : List UInt8) (c : UInt8) :
    IndexByte data c < data.length := by
  induction data with
  | nil => simp [IndexByte]
  | cons b bs ih =>
    simp only [IndexByte, List.length_cons]
    split
    · omega
    · split <;> (push_cast; omega)

theorem IndexByte_neg_iff (data : List UInt8) (c : UInt8) :
    IndexByte data c < 0 ↔ c ∉ data := by
  induction data with
  | nil => simp [IndexByte]
  | cons b bs ih =>
    have h1 := IndexByte_neg_one_le bs c
    simp only [IndexByte, List.mem_cons, not_or]
    by_cases hb : b = c
    · subst hb; simp
    · have hb2 : ¬ c = b := fun h => hb h.symm
      simp only [hb, hb2, if_false, not_false_eq_true, true_and]
      rw [← ih]
      split <;> omega

theorem IndexByte_append_cons (L R : List UInt8) (c : UInt8) (h : c ∉ L) :
    IndexByte (L ++ c :: R) c = L.length := by
  induction L with
  | nil => simp [IndexByte]
  | cons b bs ih =>
    simp only [List.mem_cons, not_or] at h
    have hb : ¬ b = c := fun e => h.1 e.symm
    have ih2 := ih h.2
    show IndexByte (b :: (bs ++ c :: R)) c = _
    simp only [IndexByte, hb, if_false, ih2, List.length_cons]
    split <;> (push_cast at *; omega)

theorem IndexByte_split (data : List UInt8) (c : UInt8) (h : 0 ≤ IndexByte data c) :
    ∃ L R, data = L ++ c :: R ∧ c ∉ L ∧ IndexByte data c = L.length := by
  induction data with
  | nil => simp [IndexByte] at h
  | cons b bs ih =>
    by_cases hb : b = c
    · subst hb
      exact ⟨[], bs, by simp, by simp, by simp [IndexByte]⟩
    · have h1 : 0 ≤ IndexByte bs c := by
        simp only [IndexByte, hb, if_false] at h
        by_contra hn
        rw [if_pos (by omega)] at h
        omega
      obtain ⟨L, R, e, hL, hi⟩ := ih h1
      refine ⟨b :: L, R, by simp [e], ?_, ?_⟩
      · simp only [List.mem_cons, not_or]
        exact ⟨fun e => hb e.symm, hL⟩
      · simp only [IndexByte, hb, if_false, List.length_cons]
        rw [if_neg (by omega)]
        push_cast
        omega

theorem dropCR_cases (data : List UInt8) :
    data = dropCR data ∨ data = dropCR data ++ [CR] := by
  unfold dropCR
  split
  · rename_i h
    right
    rw [← List.dropLast_eq_take]
    exact (List.dropLast_append_getLast? CR (by simp [h.2])).symm
  · left; rfl

theorem dropCR_length_le (data : List UInt8) : (dropCR data).length ≤ data.length := by
  rcases dropCR_cases data with h | h
  · rw [← h]
  · conv_rhs => rw [h]
    simp

theorem dropCR_initial (data : List UInt8) : dropCR data <+: data := by
  rcases dropCR_cases data with h | h
  · rw [← h]
  · exact ⟨[CR], h.symm⟩

theorem ScanLines_of_not_mem (data : List UInt8) (h : LF ∉ data) :
    ScanLines data false = ⟨0, none, none⟩ := by
  have := (IndexByte_neg_iff data LF).2 h
  simp only [ScanLines]
  rw [if_neg (by simp), if_neg (by omega)]
  simp

theorem ScanLines_append_cons (L R : List UInt8) (atEOF : Bool) (h : LF ∉ L) :
    ScanLines (L ++ LF :: R) atEOF = ⟨L.length + 1, some (dropCR L), none⟩ := by
  simp only [ScanLines, IndexByte_append_cons L R LF h]
  rw [if_neg (by simp), if_pos (by omega)]
  simp

theorem ScanLines_atEOF (data : List UInt8) (h : LF ∉ data) (hne : data ≠ []) :
    ScanLines data true = ⟨data.length, some (dropCR data), none⟩ := by
  have := (IndexByte_neg_iff data LF).2 h
  simp only [ScanLines]
  rw [if_neg (by simpa using hne), if_neg (by omega)]
  simp

theorem ScanLines_nil (atEOF : Bool) : ScanLines [] atEOF = ⟨0, none, none⟩ := by
  cases atEOF <;> decide

/-- The four shapes of a result of `scanLinesOrGiveLong`. -/
theorem scanLinesOrGiveLong_cases (data : List UInt8) (atEOF : Bool) :
    (∃ L R, data = L ++ LF :: R ∧ LF ∉ L ∧
        scanLinesOrGiveLong data atEOF = ⟨L.length + 1, some (dropCR L), none⟩) ∨
    (LF ∉ data ∧ data ≠ [] ∧ atEOF = true ∧
        scanLinesOrGiveLong data atEOF = ⟨data.length, some (dropCR data), none⟩) ∨
    (LF ∉ data ∧ (atEOF = false ∨ data = []) ∧ data.length < maxTokenLength ∧
        scanLinesOrGiveLong data atEOF = ⟨0, none, none⟩) ∨
    (LF ∉ data ∧ atEOF = false ∧ maxTokenLength ≤ data.length ∧
        scanLinesOrGiveLong data atEOF
          = ⟨maxTokenLength, some (data.take maxTokenLength), none⟩) := by
  by_cases hmem : LF ∈ data
  · left
    obtain ⟨L, R, e, hL, -⟩ := IndexByte_split data LF (by
      by_contra hn
      exact (IndexByte_neg_iff data LF).1 (by omega) hmem)
    refine ⟨L, R, e, hL, ?_⟩
    subst e
    simp only [scanLinesOrGiveLong, ScanLines_append_cons L R atEOF hL]
    rw [if_pos (by left; omega)]
  · right
    by_cases hne : data = []
    · subst hne
      right; left
      refine ⟨hmem, Or.inr rfl, by simp [maxTokenLength, MaxScanTokenSize], ?_⟩
      simp [scanLinesOrGiveLong, ScanLines_nil, maxTokenLength, MaxScanTokenSize]
    · cases atEOF with
      | true =>
        left
        refine ⟨hmem, hne, rfl, ?_⟩
        simp only [scanLinesOrGiveLong, ScanLines_atEOF data hmem hne]
        rw [if_pos (by right; left; simp)]
      | false =>
        right
        by_cases hlen : data.length < maxTokenLength
        · left
          refine ⟨hmem, Or.inl rfl, hlen, ?_⟩
          simp [scanLinesOrGiveLong, ScanLines_of_not_mem data hmem, hlen]
        · right
          refine ⟨hmem, rfl, by omega, ?_⟩
          simp [scanLinesOrGiveLong, ScanLines_of_not_mem data hmem, hlen]

/-! ## The bounded line scanner (`scanLinesOrGiveLong`) -/

/-- C1: on a buffer without a line feed that holds at least `maxTokenLength`
bytes, with `atEOF = false`, `scanLinesOrGiveLong` advances by `maxTokenLength`,
returns the first `maxTokenLength` bytes as the token, and no error. -/
theorem scanLinesOrGiveLong_chunk (data : List UInt8) (hnl : LF ∉ data)
    (hlen : maxTokenLength ≤ data.length) :
    scanLinesOrGiveLong data false
      = ⟨maxTokenLength, some (data.take maxTokenLength), none⟩ := by
  have hn : ¬ data.length < maxTokenLength := by omega
  simp [scanLinesOrGiveLong, ScanLines_of_not_mem data hnl, hn]

theorem scanLinesOrGiveLong_chunk_witness :
    LF ∉ List.replicate (maxTokenLength + 1) (97 : UInt8) ∧
    maxTokenLength ≤ (List.replicate (maxTokenLength + 1) (97 : UInt8)).length ∧
    scanLinesOrGiveLong (List.replicate (maxTokenLength + 1) 97) false
      = ⟨maxTokenLength,
          some ((List.replicate (maxTokenLength + 1) (97 : UInt8)).take maxTokenLength),
          none⟩ :=
  ⟨by simp [List.mem_replicate, LF], by simp,
    scanLinesOrGiveLong_chunk _ (by simp [List.mem_replicate, LF]) (by simp)⟩

/-- C2: on a buffer without a line feed that holds fewer than `maxTokenLength`
bytes, with `atEOF = false`, `scanLinesOrGiveLong` asks for more data: advance
`0`, nil token, nil error. -/
theorem scanLinesOrGiveLong_need_more (data : List UInt8) (hnl : LF ∉ data)
    (hlen : data.length < maxTokenLength) :
    scanLinesOrGiveLong data false = ⟨0, none, none⟩ := by
  simp [scanLinesOrGiveLong, ScanLines_of_not_mem data hnl, hlen]

theorem scanLinesOrGiveLong_need_more_witness :
    LF ∉ ([97, 98, 13] : List UInt8) ∧
    ([97, 98, 13] : List UInt8).length < maxTokenLength ∧
    scanLinesOrGiveLong [97, 98, 13] false = ⟨0, none, none⟩ :=
  ⟨by decide, by decide, scanLinesOrGiveLong_need_more _ (by decide) (by decide)⟩

/-- C3, as stated, fails: for the line `L = "a\r"` (no line feed, two bytes)
the token of `L ++ "\n"` is `"a"`, which is not `L`. -/
theorem scanLinesOrGiveLong_line_exact_counterexample :
    ([97, 13] : List UInt8).length ≤ maxTokenLength ∧ LF ∉ ([97, 13] : List UInt8) ∧
    scanLinesOrGiveLong ([97, 13] ++ LF :: []) false = ⟨3, some [97], none⟩ ∧
    (scanLinesOrGiveLong ([97, 13] ++ LF :: []) false).token ≠ some [97, 13] := by
  decide

/-- C3, amended: for a line `L` without a line feed, of at most
`maxTokenLength` bytes, any rest `R` and either `atEOF`, the scanner on
`L ++ "\n" ++ R` advances by `len(L) + 1`, returns no error, and returns as
token `L` with one trailing carriage return removed when there is one. -/
theorem scanLinesOrGiveLong_line (L R : List UInt8) (atEOF : Bool)
    (_hlen : L.length ≤ maxTokenLength) (hnl : LF ∉ L) :
    scanLinesOrGiveLong (L ++ LF :: R) atEOF = ⟨L.length + 1, some (dropCR L), none⟩ ∧
    (0 : Int) < L.length + 1 ∧
    (L.getLast? ≠ some CR → dropCR L = L) ∧
    (∀ L0, L = L0 ++ [CR] → dropCR L = L0) := by
  refine ⟨?_, by omega, ?_, ?_⟩
  · simp only [scanLinesOrGiveLong, ScanLines_append_cons L R atEOF hnl]
    rw [if_pos (by left; omega)]
  · intro h
    simp [dropCR, h]
  · intro L0 e
    subst e
    simp [dropCR]

theorem scanLinesOrGiveLong_line_witness :
    scanLinesOrGiveLong (([116, 101, 115, 116] : List UInt8) ++ LF :: [120]) false
      = ⟨(4 : Nat) + 1, some (dropCR [116, 101, 115, 116]), none⟩ ∧
    dropCR ([116, 101, 115, 116] : List UInt8) = [116, 101, 115, 116] :=
  have h := scanLinesOrGiveLong_line [116, 101, 115, 116] [120] false (by decide) (by decide)
  ⟨h.1, h.2.2.1 (by decide)⟩

/-- C5, as stated, fails: a buffer of `maxTokenLength + 1` bytes `a` followed by
a line feed has no line feed within its first `maxTokenLength` bytes, yet with
`atEOF = false` the token is the whole line of `maxTokenLength + 1` bytes, not a
chunk of `maxTokenLength` bytes. -/
theorem scanLinesOrGiveLong_token_bound_counterexample :
    LF ∉ (List.replicate (maxTokenLength + 1) (97 : UInt8) ++ LF :: []).take maxTokenLength ∧
    scanLinesOrGiveLong (List.replicate (maxTokenLength + 1) (97 : UInt8) ++ LF :: []) false
      = ⟨((maxTokenLength + 1 : Nat) : Int) + 1,
          some (List.replicate (maxTokenLength + 1) 97), none⟩ ∧
    maxTokenLength < (List.replicate (maxTokenLength + 1) (97 : UInt8)).length := by
  have hnl : LF ∉ List.replicate (maxTokenLength + 1) (97 : UInt8) := by
    simp [List.mem_replicate, LF]
  refine ⟨?_, ?_, by simp⟩
  · intro hm
    have hm2 := List.mem_of_mem_take hm
    simp only [List.mem_append, List.mem_replicate, List.mem_singleton] at hm2
    rw [List.take_append_of_le_length (by simp)] at hm
    exact hnl (List.mem_of_mem_take hm)
  · have h := ScanLines_append_cons _ [] false hnl
    have hd : dropCR (List.replicate (maxTokenLength + 1) (97 : UInt8))
        = List.replicate (maxTokenLength + 1) 97 := by
      simp [dropCR, List.getLast?_replicate, CR]
    simp only [List.length_replicate, hd] at h
    simp only [scanLinesOrGiveLong, h]
    rw [if_pos (by left; omega)]

/-- C5, amended: a token returned by `scanLinesOrGiveLong` is never longer than
the buffer; it is at most `maxTokenLength` bytes long when the buffer is, and
when the first line feed of the buffer lies at an index `≤ maxTokenLength`;
when the buffer has no line feed and `atEOF = false` the token is exactly the
first `maxTokenLength` bytes. A longer token is returned only for a buffer
longer than `maxTokenLength` whose first line feed lies beyond index
`maxTokenLength`, or that has no line feed while `atEOF = true`. -/
theorem scanLinesOrGiveLong_token_bound (data : List UInt8) (atEOF : Bool)
    (tok : List UInt8) (h : (scanLinesOrGiveLong data atEOF).token = some tok) :
    tok.length ≤ data.length ∧
    (data.length ≤ maxTokenLength → tok.length ≤ maxTokenLength) ∧
    (0 ≤ IndexByte data LF → IndexByte data LF ≤ maxTokenLength →
      tok.length ≤ maxTokenLength) ∧
    (LF ∉ data → atEOF = false →
      tok = data.take maxTokenLength ∧ tok.length = maxTokenLength) ∧
    (maxTokenLength < tok.length →
      maxTokenLength < data.length ∧
      ((maxTokenLength : Int) < IndexByte data LF ∨ (LF ∉ data ∧ atEOF = true))) := by
  rcases scanLinesOrGiveLong_cases data atEOF with
    ⟨L, R, e, hL, hr⟩ | ⟨hnl, hne, hE, hr⟩ | ⟨hnl, hE, hlen, hr⟩ | ⟨hnl, hE, hlen, hr⟩
  · rw [hr] at h
    simp only [Option.some.injEq] at h
    subst h
    have hi := IndexByte_append_cons L R LF hL
    have hd := dropCR_length_le L
    subst e
    have hlen : (L ++ LF :: R).length = L.length + R.length + 1 := by simp; omega
    refine ⟨by omega, fun _ => by omega, fun _ h2 => by omega, fun h2 => ?_,
      fun h2 => ⟨by omega, Or.inl (by omega)⟩⟩
    exact absurd (by simp) h2
  · rw [hr] at h
    simp only [Option.some.injEq] at h
    subst h
    have hd := dropCR_length_le data
    have hi := (IndexByte_neg_iff data LF).2 hnl
    refine ⟨hd, fun _ => by omega, fun h1 _ => by omega, fun _ h2 => ?_,
      fun h2 => ⟨by omega, Or.inr ⟨hnl, hE⟩⟩⟩
    simp [hE] at h2
  · rw [hr] at h
    simp at h
  · rw [hr] at h
    simp only [Option.some.injEq] at h
    subst h
    have hi := (IndexByte_neg_iff data LF).2 hnl
    have hl : (data.take maxTokenLength).length = maxTokenLength := by
      simp [List.length_take]; omega
    refine ⟨by omega, fun _ => by omega, fun h1 _ => by omega, fun _ _ => ⟨rfl, hl⟩,
      fun h2 => by omega⟩

theorem scanLinesOrGiveLong_token_bound_witness :
    (scanLinesOrGiveLong [116, 13, 10, 7] false).token = some [116] ∧
    ([116] : List UInt8).length ≤ maxTokenLength :=
  have h := scanLinesOrGiveLong_token_bound [116, 13, 10, 7] false [116] (by decide)
  ⟨by decide, h.2.1 (by decide)⟩

/-- C10: for every buffer and either `atEOF`, `scanLinesOrGiveLong` returns a
nil error, an advance between `0` and `len(data)`, a token (when present) that
is a prefix of the buffer no longer than the advance, and skips between the end
of the token and the advance only `""`, `"\n"`, `"\r"` or `"\r\n"`; with
`atEOF = true` and a non-empty buffer the advance is positive. -/
theorem scanLinesOrGiveLong_wellformed (data : List UInt8) (atEOF : Bool) :
    (scanLinesOrGiveLong data atEOF).err = none ∧
    0 ≤ (scanLinesOrGiveLong data atEOF).advance ∧
    (scanLinesOrGiveLong data atEOF).advance ≤ data.length ∧
    (∀ tok, (scanLinesOrGiveLong data atEOF).token = some tok →
      tok <+: data ∧ (tok.length : Int) ≤ (scanLinesOrGiveLong data atEOF).advance) ∧
    ((data.take (scanLinesOrGiveLong data atEOF).advance.toNat).drop
        (((scanLinesOrGiveLong data atEOF).token.getD []).length)
      ∈ [[], [LF], [CR], [CR, LF]]) ∧
    (atEOF = true → data ≠ [] → 0 < (scanLinesOrGiveLong data atEOF).advance) := by
  rcases scanLinesOrGiveLong_cases data atEOF with
    ⟨L, R, e, hL, hr⟩ | ⟨hnl, hne, hE, hr⟩ | ⟨hnl, hE, hlen, hr⟩ | ⟨hnl, hE, hlen, hr⟩
  · rw [hr]
    subst e
    have hd := dropCR_length_le L
    have hlen : (L ++ LF :: R).length = L.length + R.length + 1 := by simp; omega
    have ht : (((L.length : Int) + 1).toNat) = L.length + 1 := by omega
    have htk : (L ++ LF :: R).take (L.length + 1) = L ++ [LF] := by
      rw [show L ++ LF :: R = (L ++ [LF]) ++ R by simp]
      exact List.take_left' (by simp)
    refine ⟨rfl, by simp only; omega, by simp only; omega, ?_, ?_, fun _ _ => by simp only; omega⟩
    · intro tok ht
      simp only [Option.some.injEq] at ht
      subst ht
      obtain ⟨t, ht⟩ := dropCR_initial L
      exact ⟨⟨t ++ LF :: R, by rw [← List.append_assoc, ht]⟩, by simp only; omega⟩
    · simp only [ht, htk, Option.getD_some]
      clear hd hr
      rcases dropCR_cases L with h | h
      · rw [← h]; simp
      · generalize dropCR L = t at h ⊢
        subst h
        simp
  · rw [hr]
    have hd := dropCR_length_le data
    have hpos : 0 < data.length := List.length_pos.2 hne
    refine ⟨rfl, by simp, by simp, ?_, ?_, fun _ _ => by simp only; omega⟩
    · intro tok ht
      simp only [Option.some.injEq] at ht
      subst ht
      exact ⟨dropCR_initial data, by simp only; omega⟩
    · simp only [Int.toNat_ofNat, List.take_length, Option.getD_some]
      clear hd hr
      rcases dropCR_cases data with h | h
      · rw [← h]; simp
      · generalize dropCR data = t at h ⊢
        subst h
        simp
  · rw [hr]
    refine ⟨rfl, by simp, by simp, by simp, by simp, fun h1 h2 => ?_⟩
    rcases hE with hE | hE
    · simp [hE] at h1
    · exact absurd hE h2
  · rw [hr]
    clear hr
    generalize maxTokenLength = M at hlen ⊢
    have hl : (data.take M).length = M := by
      simp [List.length_take]; omega
    refine ⟨rfl, by simp, by simp only; omega, ?_, ?_, fun h1 => by simp [hE] at h1⟩
    · intro tok ht
      simp only [Option.some.injEq] at ht
      subst ht
      exact ⟨⟨List.drop M data, List.take_append_drop M data⟩, by simp only; omega⟩
    · show List.drop (data.take M).length (data.take ((M : Int).toNat)) ∈ _
      rw [Int.toNat_ofNat, List.drop_length]
      simp

theorem scanLinesOrGiveLong_wellformed_witness :
    0 < (scanLinesOrGiveLong [97, 13] true).advance ∧
    (scanLinesOrGiveLong [97, 13] true).advance ≤ ([97, 13] : List UInt8).length :=
  have h := scanLinesOrGiveLong_wellformed [97, 13] true
  ⟨h.2.2.2.2.2 rfl (by decide), h.2.2.1⟩

/-! ## The context field extractor (`Logger.fields`) -/

theorem fields_foldl (ctx : Context) (names : List String) (acc : List Field) :
    names.foldl
      (fun (result : List Field) (field : String) =>
        match ctx field with
        | none => result
        | some val =>
          match val with
          | Any.str strVal => result ++ [zapString field strVal]
          | _ => result)
      acc
    = acc ++ names.filterMap (extractField ctx) := by
  induction names generalizing acc with
  | nil => simp
  | cons n ns ih =>
    simp only [List.foldl_cons, List.filterMap_cons, ih, extractField]
    cases h : ctx n with
    | none => simp
    | some v => cases v <;> simp

/-- C6: `Logger.fields(ctx, fs)` is the list, in `ctxFields` order, of
`zap.String(name, v)` for exactly the configured names whose context lookup is
a string `v`, followed by all explicit fields `fs` in order; a nil or
non-string lookup contributes nothing, and with no configured name the result
is `fs` unchanged. -/
theorem Logger_fields_eq (l : Logger) (ctx : Context) (fs : List Field) :
    l.fields ctx fs = l.ctxFields.filterMap (extractField ctx) ++ fs ∧
    (l.ctxFields = [] → l.fields ctx fs = fs) ∧
    (∀ name, ctx name = none → extractField ctx name = none) ∧
    (∀ name n, ctx name = some (Any.int n) → extractField ctx name = none) ∧
    (∀ name b, ctx name = some (Any.bool b) → extractField ctx name = none) ∧
    (∀ name v, ctx name = some (Any.str v) →
      extractField ctx name = some (zapString name v)) := by
  refine ⟨?_, ?_, ?_, ?_, ?_, ?_⟩
  · unfold Logger.fields
    split
    · rename_i h
      rw [List.length_eq_zero] at h
      simp [h]
    · simp only [fields_foldl, List.nil_append]
      split
      · rfl
      · rename_i h
        have : fs = [] := by
          cases fs with
          | nil => rfl
          | cons a as => simp at h
        simp [this]
  · intro h
    simp [Logger.fields, h]
  · intro name h; simp [extractField, h]
  · intro name n h; simp [extractField, h]
  · intro name b h; simp [extractField, h]
  · intro name v h; simp [extractField, h]

theorem Logger_fields_eq_witness :
    (Logger.mk ["request_id", "user_id", "n"]).fields
        (fun k => if k = "request_id" then some (Any.str "123456")
          else if k = "n" then some (Any.int 7) else none)
        [zapString "k" "v"]
      = [zapString "request_id" "123456", zapString "k" "v"] ∧
    (Logger.mk []).fields (fun _ => some (Any.str "x")) [zapString "k" "v"]
      = [zapString "k" "v"] :=
  ⟨by decide,
    (Logger_fields_eq (Logger.mk []) (fun _ => some (Any.str "x")) [zapString "k" "v"]).2.1
      rfl⟩

/-! ## The ORM trace bridge (`GormLogger.Trace`) -/

/-- C7: with `IgnoreRecordNotFoundError = true` and an error that matches
`gorm.ErrRecordNotFound`, `GormLogger.Trace` emits no error-severity record: it
emits at most one record, and that record has warn or info severity. -/
theorem Trace_record_not_found (l : GormLogger) (lg : Logger) (ctx : Context)
    (elapsed : Int) (fc : Unit → String × Int) (err : Option GoError)
    (hignore : l.IgnoreRecordNotFoundError = true)
    (hnf : isRecordNotFound err = true) :
    (l.Trace lg ctx elapsed fc err).length ≤ 1 ∧
    (∀ r ∈ l.Trace lg ctx elapsed fc err, r.level = .warn ∨ r.level = .info) ∧
    (∀ r ∈ l.Trace lg ctx elapsed fc err, r.level ≠ .error) := by
  have key : ∀ r ∈ l.Trace lg ctx elapsed fc err, r.level = .warn ∨ r.level = .info := by
    intro r hr
    unfold GormLogger.Trace at hr
    split at hr
    · simp at hr
    · split at hr
      · rename_i h
        simp [hignore, hnf] at h
      · split at hr
        · simp only [List.mem_singleton] at hr
          subst hr
          left; rfl
        · split at hr
          · simp only [List.mem_singleton] at hr
            subst hr
            right; rfl
          · simp at hr
  refine ⟨?_, key, ?_⟩
  · unfold GormLogger.Trace
    repeat' split
    all_goals simp
  · intro r hr
    rcases key r hr with h | h <;> simp [h]

theorem Trace_record_not_found_witness :
    (GormLogger.Trace ⟨4, true, 100⟩ ⟨[]⟩ contextTODO 5 (fun _ => ("SELECT 1", 0))
        (some ⟨"record not found", true⟩)).length ≤ 1 ∧
    GormLogger.Trace ⟨4, true, 100⟩ ⟨[]⟩ contextTODO 5 (fun _ => ("SELECT 1", 0))
        (some ⟨"record not found", true⟩)
      = [⟨.info, [], traceTemplate,
          [.str "record not found", .durationString 5, .int 0, .str "SELECT 1"]⟩] :=
  ⟨(Trace_record_not_found ⟨4, true, 100⟩ ⟨[]⟩ contextTODO 5 (fun _ => ("SELECT 1", 0))
      (some ⟨"record not found", true⟩) rfl rfl).1, by decide⟩

/-- C8, as stated, fails: with the configuration of the repository's test
(`LogLevel = 1`, which is gorm's `Silent`), a nil error and any elapsed time,
`GormLogger.Trace` emits no record at all rather than exactly one; with
`LogLevel = 4` and `SlowThreshold = 0` a slow query is logged at info, not
warn, severity. -/
theorem Trace_exactly_one_counterexample :
    GormLogger.Trace ⟨1, true, 100000000⟩ ⟨[]⟩ contextTODO 5
        (fun _ => ("SELECT * FROM users", 1)) none = [] ∧
    GormLogger.Trace ⟨2, false, 100⟩ ⟨[]⟩ contextTODO 500
        (fun _ => ("SELECT * FROM users", 1)) none = [] ∧
    (5 : Int) > 0 ∧
    (GormLogger.Trace ⟨4, false, 0⟩ ⟨[]⟩ contextTODO 5
        (fun _ => ("SELECT * FROM users", 1)) none).map (fun r => r.level) = [.info] := by
  decide

theorem Trace_eq (l : GormLogger) (lg : Logger) (ctx : Context)
    (elapsed : Int) (fc : Unit → String × Int) (err : Option GoError) :
    l.Trace lg ctx elapsed fc err =
      if glError ≤ l.LogLevel ∧ err ≠ none ∧
          ¬ (l.IgnoreRecordNotFoundError = true ∧ isRecordNotFound err = true) then
        [⟨.error, lg.fields ctx [], traceTemplate,
          [.str (errText err), .durationString elapsed, .int (fc ()).2, .str (fc ()).1]⟩]
      else if glWarn ≤ l.LogLevel ∧ l.SlowThreshold ≠ 0 ∧ elapsed > l.SlowThreshold then
        [⟨.warn, lg.fields ctx [], traceTemplate,
          [.str (errText err), .durationString elapsed, .int (fc ()).2, .str (fc ()).1]⟩]
      else if glInfo ≤ l.LogLevel then
        [⟨.info, lg.fields ctx [], traceTemplate,
          [.str (errText err), .durationString elapsed, .int (fc ()).2, .str (fc ()).1]⟩]
      else [] := by
  unfold GormLogger.Trace
  simp only [glError, glWarn, glInfo]
  by_cases h0 : l.LogLevel ≤ 0
  · rw [if_pos h0, if_neg (by omega), if_neg (by omega), if_neg (by omega)]
  · rw [if_neg h0]
    by_cases h1 : l.LogLevel ≥ 2 ∧ err ≠ none ∧
        ¬ (l.IgnoreRecordNotFoundError = true ∧ isRecordNotFound err = true)
    · rw [if_pos ⟨h1.2.1, h1.1, by
        by_cases hi : l.IgnoreRecordNotFoundError = true
        · right; intro hn; exact h1.2.2 ⟨hi, hn⟩
        · left; exact hi⟩, if_pos h1]
      rfl
    · rw [if_neg (by
        rintro ⟨ha, hl, hb⟩
        apply h1
        refine ⟨hl, ha, ?_⟩
        rintro ⟨hc, hd⟩
        rcases hb with hb | hb
        · exact hb hc
        · exact hb hd), if_neg h1]
      by_cases h2 : l.LogLevel ≥ 3 ∧ l.SlowThreshold ≠ 0 ∧ elapsed > l.SlowThreshold
      · rw [if_pos ⟨h2.2.1, h2.2.2, h2.1⟩, if_pos h2]
        rfl
      · rw [if_neg (by rintro ⟨ha, hb, hc⟩; exact h2 ⟨hc, ha, hb⟩), if_neg h2]
        by_cases h3 : l.LogLevel ≥ 4
        · rw [if_pos h3, if_pos h3]
          rfl
        · rw [if_neg h3, if_neg h3]

/-- C8, amended: `GormLogger.Trace` emits at most one record per call, gated by
`LogLevel`. It emits exactly one error-severity record when `LogLevel` is at
least `Error` and the error is non-nil and is not a suppressed record-not-found
error; otherwise exactly one warn-severity record when `LogLevel` is at least
`Warn`, `SlowThreshold` is non-zero and the elapsed time is greater than
`SlowThreshold`; otherwise exactly one info-severity record when `LogLevel` is
at least `Info`; otherwise no record, in particular none when `LogLevel` is at
most `Silent`. The record carries the error text, the elapsed time, the row
count and the SQL text returned by the closure. -/
theorem Trace_exactly_one (l : GormLogger) (lg : Logger) (ctx : Context)
    (elapsed : Int) (fc : Unit → String × Int) (err : Option GoError) :
    (l.Trace lg ctx elapsed fc err).length ≤ 1 ∧
    (l.LogLevel ≤ glSilent → l.Trace lg ctx elapsed fc err = []) ∧
    (glError ≤ l.LogLevel → err ≠ none →
      ¬ (l.IgnoreRecordNotFoundError = true ∧ isRecordNotFound err = true) →
      l.Trace lg ctx elapsed fc err
        = [⟨.error, lg.fields ctx [], traceTemplate,
            [.str (errText err), .durationString elapsed, .int (fc ()).2,
              .str (fc ()).1]⟩]) ∧
    (glWarn ≤ l.LogLevel →
      ¬ (err ≠ none ∧
        ¬ (l.IgnoreRecordNotFoundError = true ∧ isRecordNotFound err = true)) →
      l.SlowThreshold ≠ 0 → elapsed > l.SlowThreshold →
      l.Trace lg ctx elapsed fc err
        = [⟨.warn, lg.fields ctx [], traceTemplate,
            [.str (errText err), .durationString elapsed, .int (fc ()).2,
              .str (fc ()).1]⟩]) ∧
    (glInfo ≤ l.LogLevel →
      l.Trace lg ctx elapsed fc err
        = [⟨traceLevel l elapsed err, lg.fields ctx [], traceTemplate,
            [.str (errText err), .durationString elapsed, .int (fc ()).2,
              .str (fc ()).1]⟩]) ∧
    (glInfo ≤ l.LogLevel →
      ¬ (err ≠ none ∧
        ¬ (l.IgnoreRecordNotFoundError = true ∧ isRecordNotFound err = true)) →
      ¬ (l.SlowThreshold ≠ 0 ∧ elapsed > l.SlowThreshold) →
      l.Trace lg ctx elapsed fc err
        = [⟨.info, lg.fields ctx [], traceTemplate,
            [.str (errText err), .durationString elapsed, .int (fc ()).2,
              .str (fc ()).1]⟩]) ∧
    (l.LogLevel < glInfo →
      ¬ (err ≠ none ∧
        ¬ (l.IgnoreRecordNotFoundError = true ∧ isRecordNotFound err = true)) →
      ¬ (l.SlowThreshold ≠ 0 ∧ elapsed > l.SlowThreshold) →
      l.Trace lg ctx elapsed fc err = []) ∧
    (l.LogLevel < glWarn →
      ¬ (err ≠ none ∧
        ¬ (l.IgnoreRecordNotFoundError = true ∧ isRecordNotFound err = true)) →
      l.Trace lg ctx elapsed fc err = []) := by
  rw [Trace_eq]
  simp only [glSilent, glError, glWarn, glInfo]
  refine ⟨?_, ?_, ?_, ?_, ?_, ?_, ?_, ?_⟩
  · repeat' split
    all_goals simp
  · intro h
    rw [if_neg (by omega), if_neg (by omega), if_neg (by omega)]
  · intro h he hs
    rw [if_pos ⟨h, he, hs⟩]
  · intro h he hs1 hs2
    rw [if_neg (fun hc => he hc.2), if_pos ⟨h, hs1, hs2⟩]
  · intro h
    unfold traceLevel
    by_cases h1 : err ≠ none ∧
        ¬ (l.IgnoreRecordNotFoundError = true ∧ isRecordNotFound err = true)
    · rw [if_pos ⟨by omega, h1⟩, if_pos h1]
    · rw [if_neg (fun hc => h1 hc.2), if_neg h1]
      by_cases h2 : l.SlowThreshold ≠ 0 ∧ elapsed > l.SlowThreshold
      · rw [if_pos ⟨by omega, h2⟩, if_pos h2]
      · rw [if_neg (fun hc => h2 hc.2), if_neg h2, if_pos h]
  · intro h he hs
    rw [if_neg (fun hc => he hc.2), if_neg (fun hc => hs hc.2), if_pos h]
  · intro h he hs
    rw [if_neg (fun hc => he hc.2), if_neg (fun hc => hs hc.2), if_neg (by omega)]
  · intro h he
    rw [if_neg (fun hc => he hc.2), if_neg (by omega), if_neg (by omega)]

theorem Trace_exactly_one_witness :
    GormLogger.Trace ⟨4, true, 100⟩ ⟨[]⟩ contextTODO 500 (fun _ => ("SELECT 1", 3)) none
      = [⟨traceLevel ⟨4, true, 100⟩ 500 none, [], traceTemplate,
          [.str "", .durationString 500, .int 3, .str "SELECT 1"]⟩] ∧
    traceLevel ⟨4, true, 100⟩ 500 none = .warn ∧
    GormLogger.Trace ⟨2, true, 100⟩ ⟨[]⟩ contextTODO 5 (fun _ => ("SELECT 1", 3))
        (some ⟨"boom", false⟩)
      = [⟨.error, [], traceTemplate,
          [.str "boom", .durationString 5, .int 3, .str "SELECT 1"]⟩] ∧
    GormLogger.Trace ⟨3, true, 100⟩ ⟨[]⟩ contextTODO 500 (fun _ => ("SELECT 1", 3))
        (some ⟨"record not found", true⟩)
      = [⟨.warn, [], traceTemplate,
          [.str "record not found", .durationString 500, .int 3, .str "SELECT 1"]⟩] ∧
    GormLogger.Trace ⟨3, true, 100⟩ ⟨[]⟩ contextTODO 5 (fun _ => ("SELECT 1", 3)) none
      = [] :=
  ⟨(Trace_exactly_one ⟨4, true, 100⟩ ⟨[]⟩ contextTODO 500 (fun _ => ("SELECT 1", 3))
      none).2.2.2.2.1 (by decide),
    by decide,
    (Trace_exactly_one ⟨2, true, 100⟩ ⟨[]⟩ contextTODO 5 (fun _ => ("SELECT 1", 3))
      (some ⟨"boom", false⟩)).2.2.1 (by decide) (by decide) (by decide),
    (Trace_exactly_one ⟨3, true, 100⟩ ⟨[]⟩ contextTODO 500 (fun _ => ("SELECT 1", 3))
      (some ⟨"record not found", true⟩)).2.2.2.1 (by decide) (by decide) (by decide)
      (by decide),
    (Trace_exactly_one ⟨3, true, 100⟩ ⟨[]⟩ contextTODO 5 (fun _ => ("SELECT 1", 3))
      none).2.2.2.2.2.2.1 (by decide) (by decide) (by decide)⟩

/-! ## The scanner run over a stream of short lines -/

theorem first_LF_unique {L L' R R' : List UInt8} (h : L ++ LF :: R = L' ++ LF :: R')
    (hL : LF ∉ L) (hL' : LF ∉ L') : L = L' ∧ R = R' := by
  have h1 := IndexByte_append_cons L R LF hL
  rw [h, IndexByte_append_cons L' R' LF hL'] at h1
  have h2 : L.length = L'.length := by omega
  have h3 := List.append_inj h h2
  exact ⟨h3.1, by simpa using h3.2⟩

theorem initial_of_first_LF {data F L R : List UInt8} (h : data ++ F = L ++ LF :: R)
    (hd : LF ∉ data) : ∃ T, L = data ++ T ∧ F = T ++ LF :: R := by
  rcases List.append_eq_append_iff.1 h with ⟨a, h1, h2⟩ | ⟨c, h1, h2⟩
  · exact ⟨a, h1, h2⟩
  · cases c with
    | nil => exact ⟨[], by simpa using h1.symm, by simpa using h2.symm⟩
    | cons x c =>
      simp only [List.cons_append, List.cons.injEq] at h2
      exfalso
      apply hd
      rw [h1, ← h2.1]
      simp

theorem splitLines_append_cons (L R : List UInt8) (hL : LF ∉ L) :
    splitLines (L ++ LF :: R) = L :: splitLines R := by
  induction L with
  | nil => simp [splitLines]
  | cons b L ih =>
    simp only [List.mem_cons, not_or] at hL
    have hb : ¬ b = LF := fun e => hL.1 e.symm
    show splitLines (b :: (L ++ LF :: R)) = _
    simp [splitLines, hb, ih hL.2]

theorem splitLines_of_not_mem (L : List UInt8) (hL : LF ∉ L) (hne : L ≠ []) :
    splitLines L = [L] := by
  induction L with
  | nil => exact absurd rfl hne
  | cons b L ih =>
    simp only [List.mem_cons, not_or] at hL
    have hb : ¬ b = LF := fun e => hL.1 e.symm
    cases L with
    | nil => simp [splitLines, hb]
    | cons c L =>
      have h1 := ih hL.2 (by simp)
      rw [splitLines, if_neg hb, h1]

theorem agrees_scanLinesOrGiveLong : AgreesWithScanLines scanLinesOrGiveLong maxTokenLength := by
  intro data atEOF h
  rcases scanLinesOrGiveLong_cases data atEOF with
    ⟨L, R, e, hL, hr⟩ | ⟨hnl, hne, hE, hr⟩ | ⟨hnl, hE, hlen, hr⟩ | ⟨hnl, hE, hlen, hr⟩
  · rw [hr, e, ScanLines_append_cons L R atEOF hL]
  · rw [hr, hE, ScanLines_atEOF data hnl hne]
  · rw [hr]
    rcases hE with hE | hE
    · rw [hE, ScanLines_of_not_mem data hnl]
    · rw [hE, ScanLines_nil]
  · rcases h with h | h | h
    · exact absurd h hnl
    · rw [hE] at h; cases h
    · omega

theorem agrees_ScanLines (limit : Nat) : AgreesWithScanLines ScanLines limit :=
  fun _ _ _ => rfl

theorem splitStep_line (sp : List UInt8 → Bool → SplitResult) (limit : Nat)
    (hsp : AgreesWithScanLines sp limit) (s : Scanner) (L R0 : List UInt8)
    (hd : s.data = L ++ LF :: R0) (hL : LF ∉ L) :
    s.splitStep sp = .inl (.ret true { s with
      start := s.start + (L.length + 1), data := R0, token := some (dropCR L),
      empties := 0 }) := by
  have hsplit : sp s.data (decide (s.err ≠ none))
      = ⟨(L.length : Int) + 1, some (dropCR L), none⟩ := by
    rw [hsp _ _ (Or.inl (by rw [hd]; simp)), hd, ScanLines_append_cons L R0 _ hL]
  have hlen : s.data.length = L.length + R0.length + 1 := by rw [hd]; simp; omega
  have ht : ((L.length : Int) + 1).toNat = L.length + 1 := by omega
  have hdrop : s.data.drop (L.length + 1) = R0 := by
    rw [hd, show L ++ LF :: R0 = (L ++ [LF]) ++ R0 by simp]
    exact List.drop_left' (by simp)
  unfold Scanner.splitStep
  rw [if_pos (Or.inl (by omega))]
  simp only [hsplit]
  rw [if_neg (by simp), if_neg (by omega), if_neg (by omega), if_pos (by simp),
    if_pos (Or.inr (by omega)), ht, hdrop]

theorem splitStep_need_more (sp : List UInt8 → Bool → SplitResult) (limit : Nat)
    (hsp : AgreesWithScanLines sp limit) (s : Scanner)
    (hL : LF ∉ s.data) (hlen : s.data.length < limit) (herr : s.err = none) :
    ∃ tok, s.splitStep sp = .inr { s with token := tok } := by
  unfold Scanner.splitStep
  by_cases hd : 0 < s.data.length
  · have hsplit : sp s.data (decide (s.err ≠ none)) = ⟨0, none, none⟩ := by
      rw [hsp _ _ (Or.inr (Or.inr hlen))]
      simp only [herr, ne_eq, not_true_eq_false, decide_False]
      exact ScanLines_of_not_mem _ hL
    refine ⟨none, ?_⟩
    rw [if_pos (Or.inl hd)]
    simp only [hsplit]
    rw [if_neg (by simp), if_neg (by omega), if_neg (by omega), if_neg (by simp)]
    simp
  · refine ⟨s.token, ?_⟩
    rw [if_neg (by
      rintro (h | h)
      · exact hd h
      · exact h herr)]

theorem splitStep_atEOF (sp : List UInt8 → Bool → SplitResult) (limit : Nat)
    (hsp : AgreesWithScanLines sp limit) (s : Scanner)
    (hL : LF ∉ s.data) (hne : s.data ≠ []) (herr : s.err = some .eof) :
    s.splitStep sp = .inl (.ret true { s with
      start := s.start + s.data.length, data := [], token := some (dropCR s.data),
      empties := 0 }) := by
  have hsplit : sp s.data (decide (s.err ≠ none))
      = ⟨(s.data.length : Int), some (dropCR s.data), none⟩ := by
    have : decide (s.err ≠ none) = true := by simp [herr]
    rw [this, hsp _ _ (Or.inr (Or.inl rfl)), ScanLines_atEOF _ hL hne]
  have hpos : 0 < s.data.length := List.length_pos.2 hne
  unfold Scanner.splitStep
  rw [if_pos (Or.inl hpos)]
  simp only [hsplit]
  rw [if_neg (by simp), if_neg (by omega), if_neg (by omega), if_pos (by simp),
    if_pos (Or.inr (by omega))]
  simp

theorem splitStep_drained (sp : List UInt8 → Bool → SplitResult) (limit : Nat)
    (hsp : AgreesWithScanLines sp limit) (s : Scanner)
    (hd : s.data = []) (herr : s.err = some .eof) :
    s.splitStep sp = .inr { s with token := none } := by
  have hsplit : sp s.data (decide (s.err ≠ none)) = ⟨0, none, none⟩ := by
    have : decide (s.err ≠ none) = true := by simp [herr]
    rw [this, hsp _ _ (Or.inr (Or.inl rfl)), hd, ScanLines_nil]
  unfold Scanner.splitStep
  rw [if_pos (Or.inr (by simp [herr]))]
  simp only [hsplit]
  rw [if_neg (by simp), if_neg (by omega), if_neg (by simp), if_neg (by simp)]
  simp [hd]

theorem readLoop_eof (s : Scanner) (k l : Nat) (hr : s.r = []) (herr : s.err = none) :
    s.readLoop (k + 1) l = { s with err := some .eof } := by
  obtain ⟨r, mts, tok, bl, st, data, err, emp, dn⟩ := s
  simp only at hr herr
  subst hr herr
  simp [Scanner.readLoop, Reader.Read, Scanner.setErr]

theorem readLoop_read (s : Scanner) (k l : Nat) (w : List UInt8) (ws : Reader)
    (hr : s.r = w :: ws) (hw : w ≠ []) (hsp : s.start + s.data.length < s.bufLen) :
    s.readLoop (k + 1) l = { s with
      r := if min (s.bufLen - (s.start + s.data.length)) w.length < w.length then
          w.drop (min (s.bufLen - (s.start + s.data.length)) w.length) :: ws
        else ws
      data := s.data ++ w.take (min (s.bufLen - (s.start + s.data.length)) w.length)
      empties := 0 } := by
  obtain ⟨r, mts, tok, bl, st, data, err, emp, dn⟩ := s
  simp only at hr hsp
  subst hr
  have hpos : 0 < w.length := List.length_pos.2 hw
  simp only [Scanner.readLoop, Reader.Read]
  rw [if_neg (by simp [List.length_take]), if_neg (by simp),
    if_pos (by simp [List.length_take]; omega)]

theorem Scanner.Ready.with_token {s : Scanner} (h : s.Ready) (tok : Option (List UInt8)) :
    ({ s with token := tok } : Scanner).Ready :=
  ⟨h.err, h.done, h.fits, h.cap, h.size, h.writes⟩

theorem fillStep_reads (s : Scanner) (h : s.Ready) (hlen : s.data.length < MaxScanTokenSize) :
    ∃ s1 : Scanner, s.fillStep = .inr (s1.readLoop (maxConsecutiveEmptyReads + 1) 0) ∧
      s1.start + s1.data.length < s1.bufLen ∧ s1.data = s.data ∧ s1.r = s.r ∧
      s1.err = none ∧ s1.done = false ∧ s1.maxTokenSize = MaxScanTokenSize ∧
      s1.bufLen ≤ MaxScanTokenSize := by
  obtain ⟨herr, hdone, hfits, hcap, hsize, -⟩ := h
  obtain ⟨r, mts, tok, bl, st, data, err, emp, dn⟩ := s
  simp only at herr hdone hfits hsize hlen hcap
  subst herr hdone hsize
  simp only [MaxScanTokenSize] at hlen hcap
  unfold Scanner.fillStep
  simp only [ne_eq, not_true_eq_false, if_false]
  by_cases hshift : 0 < st ∧ (st + data.length = bl ∨ st > bl / 2)
  · simp only [hshift, and_self, if_true, Nat.zero_add]
    by_cases hfull : data.length = bl
    · omega
    · simp only [hfull, if_false]
      exact ⟨_, rfl, by simp only; omega, rfl, rfl, rfl, rfl, rfl,
        by simp only [MaxScanTokenSize]; omega⟩
  · simp only [hshift, if_false]
    by_cases hfull : st + data.length = bl
    · simp only [hfull, if_true]
      have hst : st = 0 := by
        by_contra hne
        exact hshift ⟨by omega, Or.inl hfull⟩
      rw [if_neg (by simp only [MaxScanTokenSize, maxInt]; omega)]
      refine ⟨_, rfl, ?_, rfl, rfl, rfl, rfl, rfl, ?_⟩
      · simp only [MaxScanTokenSize, startBufSize]
        split <;> omega
      · simp only [MaxScanTokenSize]
        omega
    · simp only [hfull, if_false]
      exact ⟨_, rfl, by simp only; omega, rfl, rfl, rfl, rfl, rfl,
        by simp only [MaxScanTokenSize]; omega⟩

theorem fillStep_eof (s : Scanner) (h : s.Ready) (hlen : s.data.length < MaxScanTokenSize)
    (hr : s.r = []) :
    ∃ s2 : Scanner, s.fillStep = .inr s2 ∧ s2.err = some .eof ∧ s2.data = s.data ∧
      s2.r = [] ∧ s2.done = false := by
  obtain ⟨s1, h1, -, hd, hr1, he, hdn, -, -⟩ := fillStep_reads s h hlen
  refine ⟨_, h1, ?_⟩
  rw [readLoop_eof s1 _ _ (by rw [hr1, hr]) he]
  exact ⟨rfl, hd, by rw [← hr]; exact hr1, hdn⟩

theorem fillStep_read (s : Scanner) (h : s.Ready) (hlen : s.data.length < MaxScanTokenSize)
    (w : List UInt8) (ws : Reader) (hr : s.r = w :: ws) :
    ∃ s2 : Scanner, s.fillStep = .inr s2 ∧ s2.Ready ∧
      s2.data ++ s2.r.flatten = s.data ++ s.r.flatten ∧
      s2.r.flatten.length < s.r.flatten.length := by
  obtain ⟨s1, h1, hsp, hd, hr1, he, hdn, hsz, hcap⟩ := fillStep_reads s h hlen
  have hw : w ≠ [] := h.writes w (by rw [hr]; simp)
  have hpos : 0 < w.length := List.length_pos.2 hw
  refine ⟨_, h1, ?_⟩
  rw [readLoop_read s1 _ _ w ws (by rw [hr1, hr]) hw hsp]
  generalize hn : min (s1.bufLen - (s1.start + s1.data.length)) w.length = n
  have hn1 : 0 < n := by omega
  have hn2 : n ≤ w.length := by omega
  have hn3 : n ≤ s1.bufLen - (s1.start + s1.data.length) := by omega
  refine ⟨⟨he, hdn, ?_, hcap, hsz, ?_⟩, ?_, ?_⟩
  · simp only [List.length_append, List.length_take]
    omega
  · intro x hx
    simp only at hx
    split at hx
    · rcases List.mem_cons.1 hx with e | hx
      · rw [e]
        intro h0
        have := congrArg List.length h0
        simp at this
        omega
      · exact h.writes x (by rw [hr]; simp [hx])
    · exact h.writes x (by rw [hr]; simp [hx])
  · simp only [hd, hr]
    split
    · simp only [List.flatten_cons, List.append_assoc]
      rw [← List.append_assoc (List.take n w), List.take_append_drop]
    · have : w.take n = w := List.take_of_length_le (by omega)
      simp [this]
  · simp only [hr]
    split
    · simp only [List.flatten_cons, List.length_append, List.length_drop]
      omega
    · simp only [List.flatten_cons, List.length_append]
      omega

theorem fillStep_err (s : Scanner) (e : ScanError) (herr : s.err = some e) :
    s.fillStep = .inl (.ret false { s with start := 0, data := [] }) := by
  unfold Scanner.fillStep
  rw [if_pos (by simp [herr])]

theorem scanLoop_drained (sp : List UInt8 → Bool → SplitResult) (limit : Nat)
    (hsp : AgreesWithScanLines sp limit) (s : Scanner) (h : s.Drained) (fuel : Nat)
    (hf : 1 ≤ fuel) :
    ∃ s', s.scanLoop sp fuel = some (.ret false s') ∧ s'.Err = none := by
  obtain ⟨f, rfl⟩ : ∃ f, fuel = f + 1 := ⟨fuel - 1, by omega⟩
  refine ⟨{ ({ s with token := none } : Scanner) with start := 0, data := [] }, ?_, ?_⟩
  · simp only [Scanner.scanLoop, splitStep_drained sp limit hsp s h.data h.err]
    rw [fillStep_err ({ s with token := none }) .eof h.err]
  · simp [Scanner.Err, h.err]

theorem scanLoop_line (sp : List UInt8 → Bool → SplitResult) (limit : Nat)
    (hsp : AgreesWithScanLines sp limit) (hlim : limit ≤ MaxScanTokenSize)
    (L R : List UInt8) (hL : LF ∉ L) (hlen : L.length < limit) :
    ∀ (fuel : Nat) (s : Scanner), s.Ready → s.data ++ s.r.flatten = L ++ LF :: R →
      s.r.flatten.length + 1 ≤ fuel →
      ∃ s', s.scanLoop sp fuel = some (.ret true s') ∧ s'.token = some (dropCR L) ∧
        s'.data ++ s'.r.flatten = R ∧ s'.Ready := by
  intro fuel
  induction fuel with
  | zero => intro s _ _ hf; omega
  | succ f ih =>
    intro s hs hrem hf
    by_cases hmem : LF ∈ s.data
    · obtain ⟨L', R0, hd, hL', -⟩ := IndexByte_split s.data LF (by
        by_contra hn
        exact (IndexByte_neg_iff s.data LF).1 (by omega) hmem)
      have hu : L = L' ∧ R = R0 ++ s.r.flatten := by
        apply first_LF_unique _ hL hL'
        rw [← hrem, hd]
        simp
      obtain ⟨rfl, rfl⟩ := hu
      refine ⟨{ s with
        start := s.start + (L.length + 1)
        data := R0
        token := some (dropCR L)
        empties := 0 }, ?_, rfl, rfl, ?_⟩
      · simp only [Scanner.scanLoop, splitStep_line sp limit hsp s L R0 hd hL]
      · have hl : s.data.length = L.length + R0.length + 1 := by rw [hd]; simp; omega
        have := hs.fits
        exact ⟨hs.err, hs.done, by simp only; omega, hs.cap, hs.size, hs.writes⟩
    · obtain ⟨T, hT, hflat⟩ := initial_of_first_LF hrem hmem
      have hdl : s.data.length < limit := by
        have := congrArg List.length hT
        simp only [List.length_append] at this
        omega
      obtain ⟨tok, hsplit⟩ := splitStep_need_more sp limit hsp s hmem hdl hs.err
      cases hr : s.r with
      | nil => rw [hr] at hflat; simp at hflat
      | cons w ws =>
        obtain ⟨s2, hfill, hs2, hrem2, hlt⟩ :=
          fillStep_read _ (hs.with_token tok) (by simp only; omega) w ws hr
        simp only at hrem2 hlt
        obtain ⟨s', h1, h2, h3, h4⟩ := ih s2 hs2 (by rw [hrem2, hrem]) (by omega)
        refine ⟨s', ?_, h2, h3, h4⟩
        simp only [Scanner.scanLoop, hsplit, hfill, h1]

theorem scanLoop_last (sp : List UInt8 → Bool → SplitResult) (limit : Nat)
    (hsp : AgreesWithScanLines sp limit) (hlim : limit ≤ MaxScanTokenSize) :
    ∀ (fuel : Nat) (s : Scanner), s.Ready → LF ∉ s.data ++ s.r.flatten →
      s.data ++ s.r.flatten ≠ [] → (s.data ++ s.r.flatten).length < limit →
      s.r.flatten.length + 2 ≤ fuel →
      ∃ s', s.scanLoop sp fuel = some (.ret true s') ∧
        s'.token = some (dropCR (s.data ++ s.r.flatten)) ∧ s'.Drained := by
  intro fuel
  induction fuel with
  | zero => intro s _ _ _ _ hf; omega
  | succ f ih =>
    intro s hs hnl hne hlen hf
    have hmem : LF ∉ s.data := fun h => hnl (List.mem_append_left _ h)
    have hdl : s.data.length < limit := by
      simp only [List.length_append] at hlen
      omega
    obtain ⟨tok, hsplit⟩ := splitStep_need_more sp limit hsp s hmem hdl hs.err
    cases hr : s.r with
    | nil =>
      obtain ⟨s2, hfill, he2, hd2, hr2, hdn2⟩ :=
        fillStep_eof _ (hs.with_token tok) (by simp only; omega) hr
      simp only at hd2
      have hne2 : s2.data ≠ [] := by
        rw [hd2]
        intro h0
        apply hne
        simp [h0, hr]
      obtain ⟨g, rfl⟩ : ∃ g, f = g + 1 := ⟨f - 1, by omega⟩
      refine ⟨{ s2 with
        start := s2.start + s2.data.length
        data := []
        token := some (dropCR s2.data)
        empties := 0 }, ?_, ?_, ?_⟩
      · simp only [Scanner.scanLoop, hsplit, hfill]
        rw [splitStep_atEOF sp limit hsp s2 (by rw [hd2]; exact hmem) hne2 he2]
      · simp [hd2]
      · exact ⟨he2, hdn2, rfl, hr2⟩
    | cons w ws =>
      obtain ⟨s2, hfill, hs2, hrem2, hlt⟩ :=
        fillStep_read _ (hs.with_token tok) (by simp only; omega) w ws hr
      simp only at hrem2 hlt
      rw [hr] at hnl hne hlen hf
      obtain ⟨s', h1, h2, h3⟩ := ih s2 hs2 (by rw [hrem2, hr]; exact hnl)
        (by rw [hrem2, hr]; exact hne) (by rw [hrem2, hr]; exact hlen) (by rw [hr] at hlt; omega)
      refine ⟨s', ?_, ?_, h3⟩
      · simp only [Scanner.scanLoop, hsplit, hfill, h1]
      · rw [h2, hrem2, hr]

theorem scanLoop_empty (sp : List UInt8 → Bool → SplitResult) (limit : Nat)
    (hsp : AgreesWithScanLines sp limit)
    (hpos : 0 < limit) (s : Scanner) (hs : s.Ready) (hd : s.data = []) (hr : s.r = [])
    (fuel : Nat) (hf : 2 ≤ fuel) :
    ∃ s', s.scanLoop sp fuel = some (.ret false s') ∧ s'.Err = none := by
  obtain ⟨f, rfl⟩ : ∃ f, fuel = f + 1 := ⟨fuel - 1, by omega⟩
  obtain ⟨tok, hsplit⟩ := splitStep_need_more sp limit hsp s (by simp [hd])
    (by simp [hd]; exact hpos) hs.err
  obtain ⟨s2, hfill, he2, hd2, hr2, hdn2⟩ :=
    fillStep_eof _ (hs.with_token tok) (by simp [hd, MaxScanTokenSize]) hr
  simp only at hd2
  obtain ⟨s', h1, h2⟩ := scanLoop_drained sp limit hsp s2
    ⟨he2, hdn2, by rw [hd2, hd], hr2⟩ f (by omega)
  refine ⟨s', ?_, h2⟩
  simp only [Scanner.scanLoop, hsplit, hfill, h1]

theorem flatten_eq_nil_of_writes (r : Reader) (hw : ∀ w ∈ r, w ≠ []) (h : r.flatten = []) :
    r = [] := by
  cases r with
  | nil => rfl
  | cons w ws =>
    exfalso
    apply hw w (by simp)
    simp only [List.flatten_cons, List.append_eq_nil] at h
    exact h.1

theorem forScan_lines (sp : List UInt8 → Bool → SplitResult) (limit : Nat)
    (hsp : AgreesWithScanLines sp limit) (hlim : limit ≤ MaxScanTokenSize)
    (hpos : 0 < limit) (body : List UInt8 → List Record) :
    ∀ (fuel : Nat) (s : Scanner), s.Ready →
      (∀ l ∈ splitLines (s.data ++ s.r.flatten), l.length < limit) →
      (s.data ++ s.r.flatten).length + 3 ≤ fuel →
      ∃ s', forScan sp body fuel s
          = some (((splitLines (s.data ++ s.r.flatten)).map dropCR).flatMap body, some s') ∧
        s'.Err = none := by
  intro fuel
  induction fuel with
  | zero => intro s _ _ hf; omega
  | succ f ih =>
    intro s hs hlines hf
    have hscan : ∀ g, Scanner.Scan sp g s = s.scanLoop sp g := by
      intro g
      simp [Scanner.Scan, hs.done]
    by_cases hmem : LF ∈ s.data ++ s.r.flatten
    · obtain ⟨L, R, hrem, hL, -⟩ := IndexByte_split (s.data ++ s.r.flatten) LF (by
        by_contra hn
        exact (IndexByte_neg_iff _ LF).1 (by omega) hmem)
      have hsl := splitLines_append_cons L R hL
      rw [hrem] at hlines hf ⊢
      rw [hsl] at hlines ⊢
      have hlen : L.length < limit := hlines L (by simp)
      have hfl : s.r.flatten.length ≤ (L ++ LF :: R).length := by
        rw [← hrem]; simp
      simp only [List.length_append, List.length_cons] at hf hfl
      obtain ⟨s1, h1, h2, h3, h4⟩ :=
        scanLoop_line sp limit hsp hlim L R hL hlen f s hs hrem (by omega)
      obtain ⟨s', h5, h6⟩ := ih s1 h4
        (by rw [h3]; intro l hl; exact hlines l (by simp [hl])) (by rw [h3]; omega)
      refine ⟨s', ?_, h6⟩
      simp only [forScan, hscan, h1, h5, h3, Scanner.Text, h2, Option.getD_some,
        List.map_cons, List.flatMap_cons]
    · have hflen : s.r.flatten.length ≤ (s.data ++ s.r.flatten).length := by simp
      by_cases hne : s.data ++ s.r.flatten = []
      · simp only [List.append_eq_nil] at hne
        have hr := flatten_eq_nil_of_writes s.r hs.writes hne.2
        obtain ⟨s', h1, h2⟩ := scanLoop_empty sp limit hsp hpos s hs hne.1 hr f (by omega)
        refine ⟨s', ?_, h2⟩
        simp [forScan, hscan, h1, hne.1, hne.2, splitLines]
      · have hsl := splitLines_of_not_mem _ hmem hne
        rw [hsl] at hlines ⊢
        have hlen := hlines (s.data ++ s.r.flatten) (by simp)
        obtain ⟨s1, h1, h2, h3⟩ :=
          scanLoop_last sp limit hsp hlim f s hs hmem hne hlen (by omega)
        obtain ⟨g, rfl⟩ : ∃ g, f = g + 1 := ⟨f - 1, by omega⟩
        obtain ⟨s', h5, h6⟩ := scanLoop_drained sp limit hsp s1 h3 g (by omega)
        refine ⟨s', ?_, h6⟩
        have hscan1 : Scanner.Scan sp g s1 = s1.scanLoop sp g := by
          simp [Scanner.Scan, h3.done]
        simp only [forScan, hscan, h1, hscan1, h5, Scanner.Text, h2, Option.getD_some,
          List.map_cons, List.map_nil, List.flatMap_cons, List.flatMap_nil,
          List.append_nil]

theorem flatMap_filter_map {α β : Type} (p : α → Prop) [DecidablePred p] (f : α → β)
    (xs : List α) :
    xs.flatMap (fun x => if p x then [] else [f x])
      = (xs.filter (fun x => decide (¬ p x))).map f := by
  induction xs with
  | nil => rfl
  | cons x xs ih =>
    simp only [List.flatMap_cons, ih, List.filter_cons]
    by_cases h : p x <;> simp [h]

theorem mem_of_mem_splitLines : ∀ (stream l : List UInt8), l ∈ splitLines stream →
    ∀ b ∈ l, b ∈ stream := by
  intro stream
  induction stream with
  | nil => intro l hl; simp [splitLines] at hl
  | cons b0 bs ih =>
    intro l hl b hb
    rw [splitLines] at hl
    split at hl
    · rcases List.mem_cons.1 hl with e | hl
      · subst e; simp at hb
      · exact List.mem_cons_of_mem _ (ih l hl b hb)
    · split at hl
      · simp only [List.mem_singleton] at hl
        subst hl
        simp only [List.mem_singleton] at hb
        subst hb
        simp
      · rename_i l0 ls heq
        rcases List.mem_cons.1 hl with e | hl
        · subst e
          rcases List.mem_cons.1 hb with e | hb
          · subst e; simp
          · exact List.mem_cons_of_mem _ (ih l0 (by rw [heq]; simp) b hb)
        · exact List.mem_cons_of_mem _ (ih l (by rw [heq]; simp [hl]) b hb)

theorem dropCR_of_not_mem (l : List UInt8) (h : CR ∉ l) : dropCR l = l := by
  rcases dropCR_cases l with e | e
  · exact e.symm
  · exfalso
    apply h
    rw [e]
    simp

theorem Ready_NewScanner (r : Reader) (hw : ∀ w ∈ r, w ≠ []) : (NewScanner r).Ready :=
  ⟨rfl, rfl, by simp [NewScanner], by simp [NewScanner], rfl, hw⟩

/-! ## The stream-to-logger adapter (`scan`) -/

/-- C4, as stated, fails: for the stream `"a\r\n"` the drain loop emits one
info record whose message is `"a"`, while the line (split on the line feed) is
`"a\r"`; and for the stream `"\r\n"`, whose only line `"\r"` is neither
empty nor made of spaces, it emits nothing. -/
theorem scan_records_counterexample :
    (∀ l ∈ splitLines [97, 13, 10], l.length < maxTokenLength) ∧
    scan ⟨[]⟩ contextTODO 10 [[97, 13, 10]]
      = some ([Infof ⟨[]⟩ contextTODO (.bytes [97]) []], true) ∧
    statedRecords ⟨[]⟩ contextTODO [97, 13, 10]
      = [Infof ⟨[]⟩ contextTODO (.bytes [97, 13]) []] ∧
    scan ⟨[]⟩ contextTODO 10 [[13, 10]] = some ([], true) ∧
    statedRecords ⟨[]⟩ contextTODO [13, 10] = [Infof ⟨[]⟩ contextTODO (.bytes [13]) []] := by
  decide

/-- C4, amended: for every sequence of non-empty writes to the adapter followed
by its close, in which every line (split on the line feed) is shorter than
`maxTokenLength`, the drain loop `scan` returns having emitted exactly, in
stream order, one info record per line that is not blank once one trailing
carriage return is removed from it, with that line (without the carriage
return) as message, and nothing else; a final unterminated line counts. When
the stream holds no carriage return these are the records one per line that is
neither empty nor made of spaces, with the line as message. -/
theorem scan_records (lg : Logger) (ctx : Context) (writes : Reader) (fuel : Nat)
    (hw : ∀ w ∈ writes, w ≠ [])
    (hl : ∀ l ∈ splitLines writes.flatten, l.length < maxTokenLength)
    (hf : writes.flatten.length + 3 ≤ fuel) :
    scan lg ctx fuel writes = some (loggedRecords lg ctx writes.flatten, true) ∧
    (∀ r ∈ loggedRecords lg ctx writes.flatten, r.level = .info) ∧
    (CR ∉ writes.flatten →
      loggedRecords lg ctx writes.flatten = statedRecords lg ctx writes.flatten) := by
  refine ⟨?_, ?_, ?_⟩
  · obtain ⟨s', h1, h2⟩ := forScan_lines scanLinesOrGiveLong maxTokenLength
      agrees_scanLinesOrGiveLong (by decide) (by decide) (scanBody lg ctx) fuel
      (NewScanner writes) (Ready_NewScanner writes hw)
      (by simpa [NewScanner] using hl) (by simpa [NewScanner] using hf)
    simp only [NewScanner, List.nil_append] at h1
    simp only [scan, NewScanner, h1, h2]
    unfold loggedRecords
    have := flatMap_filter_map (fun t => removeSpaces t = [])
      (fun t => Infof lg ctx (.bytes t) []) ((splitLines writes.flatten).map dropCR)
    unfold scanBody
    rw [this]
  · intro r hr
    simp only [loggedRecords, List.mem_map] at hr
    obtain ⟨l, -, rfl⟩ := hr
    rfl
  · intro hcr
    have : (splitLines writes.flatten).map dropCR = splitLines writes.flatten := by
      conv_rhs => rw [← List.map_id (splitLines writes.flatten)]
      apply List.map_congr_left
      intro l hl
      exact dropCR_of_not_mem l
        (fun h => hcr (mem_of_mem_splitLines writes.flatten l hl CR h))
    simp only [loggedRecords, statedRecords, this]

theorem scan_records_witness :
    scan ⟨[]⟩ contextTODO 9 [[97, 10, 98, 10, 10, 99]]
      = some (loggedRecords ⟨[]⟩ contextTODO [97, 10, 98, 10, 10, 99], true) ∧
    loggedRecords ⟨[]⟩ contextTODO [97, 10, 98, 10, 10, 99]
      = [Infof ⟨[]⟩ contextTODO (.bytes [97]) [], Infof ⟨[]⟩ contextTODO (.bytes [98]) [],
          Infof ⟨[]⟩ contextTODO (.bytes [99]) []] :=
  ⟨(scan_records ⟨[]⟩ contextTODO [[97, 10, 98, 10, 10, 99]] 9 (by decide) (by decide)
      (by decide)).1, by decide⟩

/-! ## The search-engine trace bridge (`EsLogger.LogRoundTrip`) -/

/-- C9, as stated, fails: with request logging enabled and the readable,
non-empty body `"\r\n"`, whose one line `"\r"` (split on the line feed) is
not empty, `LogRoundTrip` emits no record. -/
theorem LogRoundTrip_counterexample :
    EsLogger.LogRoundTrip ⟨true, true⟩ ⟨[]⟩ 10 (some ⟨.stream ⟨[13, 10], none⟩, none⟩) 0 0
      = some ⟨[], true, none⟩ ∧
    (splitLines [13, 10]).filter (fun l => l ≠ []) = [[13]] := by
  decide

/-- C9, amended: with `RequestEnabled = true`, for a request whose body (the
one `GetBody` returns when it is set, else `request.Body`) is read without
error and has every line (split on the line feed) shorter than
`bufio.MaxScanTokenSize`, `LogRoundTrip` emits exactly, in body order, one info
record per line that is not empty once one trailing carriage return is removed
from it, and returns a nil error; with `RequestEnabled = false` it emits no
record and returns a nil error. -/
theorem LogRoundTrip_records (logger : EsLogger) (lg : Logger) (t ti : Int) :
    (logger.RequestEnabled = true →
      ∀ (b0 : ReadCloser) (g : Option ReadCloser) (fuel : Nat),
        (g.getD b0).err = none →
        (∀ l ∈ splitLines (g.getD b0).content, l.length < MaxScanTokenSize) →
        (g.getD b0).content.length + 3 ≤ fuel →
        logger.LogRoundTrip lg fuel (some ⟨.stream b0, g⟩) t ti
          = some ⟨esRecords lg t ti (g.getD b0).content, true, none⟩ ∧
        ∀ r ∈ esRecords lg t ti (g.getD b0).content, r.level = .info) ∧
    (logger.RequestEnabled = false →
      ∀ (request : Option Request) (fuel : Nat),
        logger.LogRoundTrip lg fuel request t ti = some ⟨[], true, none⟩) := by
  refine ⟨?_, ?_⟩
  · intro hen b0 g fuel herr hl hf
    have hread : (match g with
        | some b => ReadFrom b
        | none => ReadFrom b0) = ((g.getD b0).content, none) := by
      cases g with
      | none => simp only [Option.getD_none] at herr ⊢; simp [ReadFrom, herr]
      | some b => simp only [Option.getD_some] at herr ⊢; simp [ReadFrom, herr]
    generalize (g.getD b0).content = content at hl hf hread
    have hw : ∀ w ∈ bufferReader content, w ≠ [] := by
      intro w hw
      unfold bufferReader at hw
      split at hw
      · simp at hw
      · simp only [List.mem_singleton] at hw
        subst hw
        assumption
    have hflat : (bufferReader content).flatten = content := by
      unfold bufferReader
      split
      · rename_i h; simp [h]
      · simp
    obtain ⟨s', h1, -⟩ := forScan_lines ScanLines MaxScanTokenSize
      (agrees_ScanLines _) (le_refl _) (by decide) (esBody lg t ti) fuel
      (NewScanner (bufferReader content)) (Ready_NewScanner _ hw)
      (by simpa [NewScanner, hflat] using hl) (by simpa [NewScanner, hflat] using hf)
    simp only [NewScanner, List.nil_append, hflat] at h1
    refine ⟨?_, ?_⟩
    · simp only [EsLogger.LogRoundTrip, EsLogger.RequestBodyEnabled, hen, if_true, hread,
        NewScanner, h1]
      unfold esRecords
      have := flatMap_filter_map (fun (t : List UInt8) => ¬ t ≠ [])
        (fun l => Infof lg contextTODO esTemplate [.text (.bytes l), .time t, .duration ti])
        ((splitLines content).map dropCR)
      unfold esBody
      simp only [ne_eq, ite_not, Decidable.not_not, decide_not,
        RoundTrip.mk.injEq, and_true, Option.some.injEq] at this ⊢
      rw [this]
    · intro r hr
      simp only [esRecords, List.mem_map] at hr
      obtain ⟨l, -, rfl⟩ := hr
      rfl
  · intro hen request fuel
    simp [EsLogger.LogRoundTrip, EsLogger.RequestBodyEnabled, hen]

theorem LogRoundTrip_records_witness :
    EsLogger.LogRoundTrip ⟨true, false⟩ ⟨[]⟩ 10
        (some ⟨.stream ⟨[123, 125, 10, 10, 97, 13, 10], none⟩, none⟩) 7 5
      = some ⟨esRecords ⟨[]⟩ 7 5 [123, 125, 10, 10, 97, 13, 10], true, none⟩ ∧
    esRecords ⟨[]⟩ 7 5 [123, 125, 10, 10, 97, 13, 10]
      = [Infof ⟨[]⟩ contextTODO esTemplate [.text (.bytes [123, 125]), .time 7, .duration 5],
          Infof ⟨[]⟩ contextTODO esTemplate [.text (.bytes [97]), .time 7, .duration 5]] ∧
    EsLogger.LogRoundTrip ⟨false, false⟩ ⟨[]⟩ 0
        (some ⟨.stream ⟨[123, 125, 10], none⟩, none⟩) 7 5 = some ⟨[], true, none⟩ :=
  ⟨((LogRoundTrip_records ⟨true, false⟩ ⟨[]⟩ 7 5).1 rfl
      ⟨[123, 125, 10, 10, 97, 13, 10], none⟩ none 10 rfl (by decide) (by decide)).1,
    by decide,
    (LogRoundTrip_records ⟨false, false⟩ ⟨[]⟩ 7 5).2 rfl _ 0⟩

theorem fillStep_tooLong (s : Scanner) (h : s.Ready)
    (hlen : s.data.length = MaxScanTokenSize) :
    s.fillStep = .inl (.ret false { s with err := some .tooLong }) := by
  obtain ⟨herr, hdone, hfits, hcap, hsize, -⟩ := h
  obtain ⟨r, mts, tok, bl, st, data, err, emp, dn⟩ := s
  simp only at herr hdone hfits hsize hlen hcap
  subst herr hdone hsize
  have hst : st = 0 := by omega
  have hbl : bl = MaxScanTokenSize := by omega
  subst hst hbl
  unfold Scanner.fillStep
  simp [hlen, Scanner.setErr]

theorem scanLoop_tooLong :
    ∀ (fuel : Nat) (s : Scanner), s.Ready →
      LF ∉ (s.data ++ s.r.flatten).take MaxScanTokenSize →
      MaxScanTokenSize ≤ (s.data ++ s.r.flatten).length →
      s.r.flatten.length + 1 ≤ fuel →
      ∃ s', s.scanLoop ScanLines fuel = some (.ret false s') ∧ s'.Err = some .tooLong := by
  intro fuel
  induction fuel with
  | zero => intro s _ _ _ hf; omega
  | succ f ih =>
    intro s hs hnl hlen hf
    have hfits := hs.fits
    have hcap := hs.cap
    have hdl : s.data.length ≤ MaxScanTokenSize := by omega
    have hmem : LF ∉ s.data := by
      intro hm
      apply hnl
      rw [List.take_append_eq_append_take]
      exact List.mem_append_left _ (by rw [List.take_of_length_le hdl]; exact hm)
    obtain ⟨tok, hsplit⟩ := splitStep_need_more ScanLines (MaxScanTokenSize + 1)
      (agrees_ScanLines _) s hmem (by omega) hs.err
    by_cases hfull : s.data.length = MaxScanTokenSize
    · refine ⟨{ ({ s with token := tok } : Scanner) with err := some .tooLong }, ?_, ?_⟩
      · simp only [Scanner.scanLoop, hsplit]
        rw [fillStep_tooLong _ (hs.with_token tok) hfull]
      · simp [Scanner.Err]
    · cases hr : s.r with
      | nil =>
        rw [hr] at hlen
        simp only [List.flatten_nil, List.append_nil] at hlen
        omega
      | cons w ws =>
        obtain ⟨s2, hfill, hs2, hrem2, hlt⟩ :=
          fillStep_read _ (hs.with_token tok) (by simp only; omega) w ws hr
        simp only at hrem2 hlt
        obtain ⟨s', h1, h2⟩ := ih s2 hs2 (by rw [hrem2]; exact hnl)
          (by rw [hrem2]; exact hlen) (by omega)
        refine ⟨s', ?_, h2⟩
        simp only [Scanner.scanLoop, hsplit, hfill, h1]

/-- A body whose first line has `bufio.MaxScanTokenSize` bytes or more is not
logged at all, whatever follows that line: the scanner stops with
`bufio.ErrTooLong`, which `LogRoundTrip` does not read, and the call returns a
nil error. -/
theorem LogRoundTrip_long_first_line (logger : EsLogger) (lg : Logger) (t ti : Int)
    (content : List UInt8) (fuel : Nat) (hen : logger.RequestEnabled = true)
    (hlen : MaxScanTokenSize ≤ content.length)
    (hnl : LF ∉ content.take MaxScanTokenSize) (hf : content.length + 2 ≤ fuel) :
    logger.LogRoundTrip lg fuel (some ⟨.stream ⟨content, none⟩, none⟩) t ti
      = some ⟨[], true, none⟩ := by
  have hne : content ≠ [] := by
    intro h0
    rw [h0] at hlen
    simp [MaxScanTokenSize] at hlen
  have hbuf : bufferReader content = [content] := by simp [bufferReader, hne]
  obtain ⟨f, rfl⟩ : ∃ f, fuel = f + 1 := ⟨fuel - 1, by omega⟩
  obtain ⟨s', h1, -⟩ := scanLoop_tooLong f (NewScanner [content])
    (Ready_NewScanner _ (by simpa using hne)) (by simpa [NewScanner] using hnl)
    (by simpa [NewScanner] using hlen) (by simp [NewScanner]; omega)
  simp only [EsLogger.LogRoundTrip, EsLogger.RequestBodyEnabled, hen, if_true, ReadFrom,
    hbuf, forScan, Scanner.Scan]
  simp only [NewScanner] at h1
  simp [NewScanner, h1]

theorem LogRoundTrip_long_first_line_witness :
    EsLogger.LogRoundTrip ⟨true, true⟩ ⟨[]⟩ (MaxScanTokenSize + 5)
        (some ⟨.stream ⟨List.replicate MaxScanTokenSize 97 ++ [10, 98, 10], none⟩, none⟩) 0 0
      = some ⟨[], true, none⟩ :=
  have h1 : ∀ N : Nat, N ≤ (List.replicate N (97 : UInt8) ++ [10, 98, 10]).length :=
    fun N => by simp
  have h2 : ∀ N : Nat, LF ∉ (List.replicate N (97 : UInt8) ++ [10, 98, 10]).take N := by
    intro N h
    rw [List.take_append_of_le_length (by simp)] at h
    have := List.mem_of_mem_take h
    simp [List.mem_replicate, LF] at this
  have h3 : ∀ N : Nat, (List.replicate N (97 : UInt8) ++ [10, 98, 10]).length + 2 ≤ N + 5 :=
    fun N => by simp
  LogRoundTrip_long_first_line ⟨true, true⟩ ⟨[]⟩ 0 0
    (List.replicate MaxScanTokenSize 97 ++ [10, 98, 10]) (MaxScanTokenSize + 5) rfl
    (h1 _) (h2 _) (h3 _)

/-! ## The size of the tokens of the adapter, for every stream -/

theorem scanLinesOrGiveLong_facts (data : List UInt8) (atEOF : Bool) :
    (scanLinesOrGiveLong data atEOF).err = none ∧
    0 ≤ (scanLinesOrGiveLong data atEOF).advance ∧
    (scanLinesOrGiveLong data atEOF).advance ≤ data.length ∧
    (∀ tok, (scanLinesOrGiveLong data atEOF).token = some tok →
      0 < (scanLinesOrGiveLong data atEOF).advance ∧ tok.length ≤ data.length) ∧
    ((scanLinesOrGiveLong data atEOF).token = none →
      (scanLinesOrGiveLong data atEOF).advance = 0 ∧ data.length < maxTokenLength) := by
  rcases scanLinesOrGiveLong_cases data atEOF with
    ⟨L, R, e, hL, hr⟩ | ⟨hnl, hne, hE, hr⟩ | ⟨hnl, hE, hlen, hr⟩ | ⟨hnl, hE, hlen, hr⟩
  · rw [hr]
    have hd := dropCR_length_le L
    have hl : data.length = L.length + R.length + 1 := by rw [e]; simp; omega
    refine ⟨rfl, by simp only; omega, by simp only; omega, ?_, by simp⟩
    intro tok ht
    simp only [Option.some.injEq] at ht
    subst ht
    exact ⟨by simp only; omega, by omega⟩
  · rw [hr]
    have hd := dropCR_length_le data
    have hpos : 0 < data.length := List.length_pos.2 hne
    refine ⟨rfl, by simp, by simp, ?_, by simp⟩
    intro tok ht
    simp only [Option.some.injEq] at ht
    subst ht
    exact ⟨by simp only; omega, hd⟩
  · rw [hr]
    exact ⟨rfl, by simp, by simp, by simp, fun _ => ⟨rfl, hlen⟩⟩
  · rw [hr]
    clear hr
    have hM : 0 < maxTokenLength := by decide
    generalize maxTokenLength = M at hlen hM ⊢
    refine ⟨rfl, by simp, by simp only; omega, ?_, by simp⟩
    intro tok ht
    simp only [Option.some.injEq] at ht
    subst ht
    exact ⟨by simp only; omega, by simp [List.length_take]⟩

theorem splitStep_eq (sp : List UInt8 → Bool → SplitResult) (s : Scanner)
    (hcall : 0 < s.data.length ∨ s.err ≠ none)
    (he : (sp s.data (decide (s.err ≠ none))).err = none)
    (h0 : 0 ≤ (sp s.data (decide (s.err ≠ none))).advance)
    (h1 : (sp s.data (decide (s.err ≠ none))).advance ≤ s.data.length)
    (hpos : (sp s.data (decide (s.err ≠ none))).token ≠ none →
      0 < (sp s.data (decide (s.err ≠ none))).advance) :
    s.splitStep sp =
      if (sp s.data (decide (s.err ≠ none))).token ≠ none then
        .inl (.ret true { s with
          start := s.start + (sp s.data (decide (s.err ≠ none))).advance.toNat
          data := s.data.drop (sp s.data (decide (s.err ≠ none))).advance.toNat
          token := (sp s.data (decide (s.err ≠ none))).token
          empties := 0 })
      else
        .inr { s with
          start := s.start + (sp s.data (decide (s.err ≠ none))).advance.toNat
          data := s.data.drop (sp s.data (decide (s.err ≠ none))).advance.toNat
          token := (sp s.data (decide (s.err ≠ none))).token } := by
  unfold Scanner.splitStep
  rw [if_pos hcall]
  generalize sp s.data (decide (s.err ≠ none)) = res at he h0 h1 hpos
  simp only
  rw [if_neg (by simp [he]), if_neg (by omega), if_neg (by omega)]
  by_cases ht : res.token ≠ none
  · rw [if_pos ht, if_pos ht, if_pos (Or.inr (hpos ht))]
  · rw [if_neg ht, if_neg ht]

theorem setErr_bounded (s : Scanner) (e : ScanError) (h : s.Bounded) :
    (s.setErr e).Bounded := by
  unfold Scanner.setErr
  split
  · exact ⟨h.fits, h.size, h.buf⟩
  · exact h

theorem Read_length_le (r : Reader) (space : Nat) : (r.Read space).1.length ≤ space := by
  cases r with
  | nil => simp [Reader.Read]
  | cons w ws => simp [Reader.Read, List.length_take]

theorem readLoop_bounded : ∀ (k l : Nat) (s : Scanner), s.Bounded → (s.readLoop k l).Bounded := by
  intro k
  induction k with
  | zero => intro l s h; exact h
  | succ k ih =>
    intro l s h
    have hfits := h.fits
    have hp := Read_length_le s.r (s.bufLen - (s.start + s.data.length))
    unfold Scanner.readLoop
    simp only
    rw [if_neg (by omega)]
    have hb : ({ s with
        r := (s.r.Read (s.bufLen - (s.start + s.data.length))).2.1
        data := s.data ++ (s.r.Read (s.bufLen - (s.start + s.data.length))).1 }
        : Scanner).Bounded :=
      ⟨by simp only [List.length_append]; omega, h.size, h.buf⟩
    split
    · exact setErr_bounded _ _ hb
    · split
      · exact ⟨hb.fits, hb.size, hb.buf⟩
      · split
        · exact setErr_bounded _ _ hb
        · exact ih _ _ hb

theorem splitStep_bounded (s : Scanner) (h : s.Bounded) :
    (∀ more s', s.splitStep scanLinesOrGiveLong = .inl (.ret more s') →
      s'.Bounded ∧ (more = true → s'.Text.length ≤ maxTokenLength)) ∧
    (∀ s1, s.splitStep scanLinesOrGiveLong = .inr s1 →
      s1.Bounded ∧ s1.data.length < maxTokenLength) := by
  have hfits := h.fits
  have hbuf : s.bufLen ≤ maxTokenLength := by
    have := h.buf
    simp only [maxTokenLength, MaxScanTokenSize]
    omega
  by_cases hcall : 0 < s.data.length ∨ s.err ≠ none
  · obtain ⟨he, h0, h1, htok, hnone⟩ :=
      scanLinesOrGiveLong_facts s.data (decide (s.err ≠ none))
    have hpos : (scanLinesOrGiveLong s.data (decide (s.err ≠ none))).token ≠ none →
        0 < (scanLinesOrGiveLong s.data (decide (s.err ≠ none))).advance := by
      intro hne
      obtain ⟨tok, ht⟩ := Option.ne_none_iff_exists'.1 hne
      exact (htok tok ht).1
    rw [splitStep_eq scanLinesOrGiveLong s hcall he h0 h1 hpos]
    generalize scanLinesOrGiveLong s.data (decide (s.err ≠ none)) = res at *
    have hb : ∀ (tk : Option (List UInt8)) (em : Nat), ({ s with
        start := s.start + res.advance.toNat
        data := s.data.drop res.advance.toNat
        token := tk
        empties := em } : Scanner).Bounded := fun tk em =>
      ⟨by simp only [List.length_drop]; omega, h.size, h.buf⟩
    by_cases ht : res.token ≠ none
    · rw [if_pos ht]
      refine ⟨?_, fun s1 h2 => by cases h2⟩
      intro more s' h2
      simp only [Sum.inl.injEq, ScanResult.ret.injEq] at h2
      obtain ⟨-, rfl⟩ := h2
      refine ⟨hb _ _, fun _ => ?_⟩
      obtain ⟨tok, ht2⟩ := Option.ne_none_iff_exists'.1 ht
      have := (htok tok ht2).2
      simp only [Scanner.Text, ht2, Option.getD_some]
      omega
    · rw [if_neg ht]
      refine ⟨fun more s' h2 => (by cases h2), ?_⟩
      intro s1 h2
      simp only [Sum.inr.injEq] at h2
      subst h2
      have hn := hnone (by simpa using ht)
      refine ⟨⟨by simp only [List.length_drop]; omega, h.size, h.buf⟩, ?_⟩
      simp only [List.length_drop]
      omega
  · unfold Scanner.splitStep
    rw [if_neg hcall]
    refine ⟨fun more s' h2 => (by cases h2), ?_⟩
    intro s1 h2
    simp only [Sum.inr.injEq] at h2
    subst h2
    refine ⟨h, ?_⟩
    have : s.data.length = 0 := by
      by_contra hne
      exact hcall (Or.inl (by omega))
    rw [this]
    decide

theorem fillStep_bounded (s : Scanner) (h : s.Bounded) (hlen : s.data.length < maxTokenLength) :
    (∀ more s', s.fillStep = .inl (.ret more s') → s'.Bounded ∧ more = false) ∧
    (∀ s2, s.fillStep = .inr s2 → s2.Bounded) := by
  obtain ⟨hfits, hsize, hbuf⟩ := h
  obtain ⟨r, mts, tok, bl, st, data, err, emp, dn⟩ := s
  simp only at hfits hsize hbuf hlen
  subst hsize
  simp only [maxTokenLength, MaxScanTokenSize] at hlen
  unfold Scanner.fillStep
  by_cases herr : err ≠ none
  · rw [if_pos herr]
    refine ⟨?_, fun s2 h2 => (by cases h2)⟩
    intro more s' h2
    simp only [Sum.inl.injEq, ScanResult.ret.injEq] at h2
    obtain ⟨rfl, rfl⟩ := h2
    exact ⟨⟨by simp, rfl, hbuf⟩, rfl⟩
  · rw [if_neg herr]
    simp only
    by_cases hshift : 0 < st ∧ (st + data.length = bl ∨ st > bl / 2)
    · simp only [hshift, and_self, if_true, Nat.zero_add]
      by_cases hfull : data.length = bl
      · omega
      · simp only [hfull, if_false]
        refine ⟨fun more s' h2 => (by cases h2), ?_⟩
        intro s2 h2
        simp only [Sum.inr.injEq] at h2
        subst h2
        exact readLoop_bounded _ _ _ ⟨by simp only; omega, rfl, hbuf⟩
    · simp only [hshift, if_false]
      by_cases hfull : st + data.length = bl
      · simp only [hfull, if_true]
        rw [if_neg (by simp only [MaxScanTokenSize, maxInt]; omega)]
        refine ⟨fun more s' h2 => (by cases h2), ?_⟩
        intro s2 h2
        simp only [Sum.inr.injEq] at h2
        subst h2
        apply readLoop_bounded
        refine ⟨?_, rfl, ?_⟩
        · simp only [MaxScanTokenSize, startBufSize]
          split <;> omega
        · simp only [MaxScanTokenSize, startBufSize]
          split <;> omega
      · simp only [hfull, if_false]
        refine ⟨fun more s' h2 => (by cases h2), ?_⟩
        intro s2 h2
        simp only [Sum.inr.injEq] at h2
        subst h2
        exact readLoop_bounded _ _ _ ⟨hfits, rfl, hbuf⟩

theorem scanLoop_bounded :
    ∀ (fuel : Nat) (s : Scanner), s.Bounded →
      ∀ more s', s.scanLoop scanLinesOrGiveLong fuel = some (.ret more s') →
        s'.Bounded ∧ (more = true → s'.Text.length ≤ maxTokenLength) := by
  intro fuel
  induction fuel with
  | zero => intro s _ more s' h; simp [Scanner.scanLoop] at h
  | succ f ih =>
    intro s hs more s' h
    obtain ⟨hl, hr⟩ := splitStep_bounded s hs
    unfold Scanner.scanLoop at h
    cases h1 : s.splitStep scanLinesOrGiveLong with
    | inl res =>
      simp only [h1, Option.some.injEq] at h
      subst h
      exact hl more s' h1
    | inr s1 =>
      simp only [h1] at h
      obtain ⟨hs1, hlen⟩ := hr s1 h1
      obtain ⟨hl2, hr2⟩ := fillStep_bounded s1 hs1 hlen
      cases h2 : s1.fillStep with
      | inl res =>
        simp only [h2, Option.some.injEq] at h
        subst h
        obtain ⟨hb, hm⟩ := hl2 more s' h2
        exact ⟨hb, fun ht => by rw [hm] at ht; cases ht⟩
      | inr s2 =>
        simp only [h2] at h
        exact ih s2 (hr2 s2 h2) more s' h

theorem forScan_bounded (lg : Logger) (ctx : Context) :
    ∀ (fuel : Nat) (s : Scanner), s.Bounded →
      ∀ recs fin, forScan scanLinesOrGiveLong (scanBody lg ctx) fuel s = some (recs, fin) →
        ∀ r ∈ recs, ∃ t, r = Infof lg ctx (.bytes t) [] ∧ t.length ≤ maxTokenLength := by
  intro fuel
  induction fuel with
  | zero => intro s _ recs fin h; simp [forScan] at h
  | succ f ih =>
    intro s hs recs fin h r hr
    unfold forScan at h
    cases h1 : s.Scan scanLinesOrGiveLong f with
    | none => rw [h1] at h; simp at h
    | some res =>
      rw [h1] at h
      cases res with
      | panic =>
        simp only [Option.some.injEq, Prod.mk.injEq] at h
        rw [← h.1] at hr
        simp at hr
      | ret more s1 =>
        have hb : s1.Bounded ∧ (more = true → s1.Text.length ≤ maxTokenLength) := by
          unfold Scanner.Scan at h1
          split at h1
          · simp only [Option.some.injEq, ScanResult.ret.injEq] at h1
            obtain ⟨rfl, rfl⟩ := h1
            exact ⟨hs, fun ht => by cases ht⟩
          · exact scanLoop_bounded f s hs more s1 h1
        cases more with
        | false =>
          simp only [Option.some.injEq, Prod.mk.injEq] at h
          rw [← h.1] at hr
          simp at hr
        | true =>
          simp only at h
          cases h2 : forScan scanLinesOrGiveLong (scanBody lg ctx) f s1 with
          | none => rw [h2] at h; simp at h
          | some p =>
            obtain ⟨recs1, fin1⟩ := p
            rw [h2] at h
            simp only [Option.some.injEq, Prod.mk.injEq] at h
            rw [← h.1] at hr
            rcases List.mem_append.1 hr with hr | hr
            · unfold scanBody at hr
              split at hr
              · simp at hr
              · simp only [List.mem_singleton] at hr
                exact ⟨s1.Text, hr, hb.2 rfl⟩
            · exact ih s1 hb.1 recs1 fin1 h2 r hr

/-- Whatever is written to the adapter, in whatever writes, every info record
that `scan` emits has as message a byte string of at most `maxTokenLength`
bytes: the scanner never hands a longer buffer to `scanLinesOrGiveLong`. -/
theorem scan_message_bound (lg : Logger) (ctx : Context) (fuel : Nat) (writes : Reader)
    (recs : List Record) (returned : Bool)
    (h : scan lg ctx fuel writes = some (recs, returned)) :
    ∀ r ∈ recs, r.level = .info →
      ∃ t, r.template = .bytes t ∧ t.length ≤ maxTokenLength := by
  have hb : (NewScanner writes).Bounded := ⟨by simp [NewScanner], rfl, Or.inl rfl⟩
  intro r hr hlevel
  unfold scan at h
  simp only at h
  cases h1 : forScan scanLinesOrGiveLong (scanBody lg ctx) fuel (NewScanner writes) with
  | none => rw [h1] at h; simp at h
  | some p =>
    obtain ⟨recs1, fin⟩ := p
    have key := forScan_bounded lg ctx fuel _ hb recs1 fin h1
    rw [h1] at h
    cases fin with
    | none =>
      simp only [Option.some.injEq, Prod.mk.injEq] at h
      rw [← h.1] at hr
      obtain ⟨t, rfl, ht⟩ := key r hr
      exact ⟨t, rfl, ht⟩
    | some s =>
      simp only at h
      split at h
      · simp only [Option.some.injEq, Prod.mk.injEq] at h
        rw [← h.1] at hr
        obtain ⟨t, rfl, ht⟩ := key r hr
        exact ⟨t, rfl, ht⟩
      · simp only [Option.some.injEq, Prod.mk.injEq] at h
        rw [← h.1] at hr
        rcases List.mem_append.1 hr with hr | hr
        · obtain ⟨t, rfl, ht⟩ := key r hr
          exact ⟨t, rfl, ht⟩
        · simp only [List.mem_singleton] at hr
          subst hr
          cases hlevel

theorem scan_message_bound_witness :
    ∀ r ∈ [Infof ⟨[]⟩ contextTODO (.bytes [97]) []], r.level = .info →
      ∃ t, r.template = .bytes t ∧ t.length ≤ maxTokenLength :=
  scan_message_bound ⟨[]⟩ contextTODO 10 [[97, 13, 10]] _ true (by decide)

end Log
